import Mathlib

/-!
DocxPdfConverter: the upload / conversion / download session

A shallow embedding of `frontend/src/components/DocxPdfConverter.jsx`.

* JavaScript strings are modelled as `List Char` (sequences of Unicode scalar
  values; lone surrogates are outside the model).
* The React state of the component is the record `Session`; every `setX(v)`
  call is a field update.
* The asynchronous function `upload` is split at its suspension points:
  `upload` (the synchronous prefix up to and including `axios.post`),
  `onUploadProgress`, `uploadResolved` (the code after `await` on a fulfilled
  request, including the `catch` block when that code throws),
  `uploadRejected` (the `catch` block on a rejected request) and
  `readerOnload` (the `FileReader` callback).
-/

namespace DocxPdfConverter

/-! ## JavaScript strings -/

/-- JavaScript string. -/
abbrev JsString := List Char

/-- `String.prototype.toLowerCase`, on the ASCII letters.  Outside ASCII the
only characters whose lower-case form contains an ASCII character are U+212A
(to `k`) and U+0130 (to `i` followed by U+0307); neither `k` nor `i` occurs in
`.docx` or `.pdf`, so membership of the result in the whitelist is the same as
in JavaScript. -/
def toLowerCase (s : JsString) : JsString := s.map Char.toLower

/-- Loop of `lastIndexOf`: `i` is the index of the head of the remaining
input, `acc` the last index found so far. -/
def lastIndexOfAux (c : Char) : JsString → Nat → Int → Int
  | [], _, acc => acc
  | x :: xs, i, acc => lastIndexOfAux c xs (i + 1) (if x = c then (i : Int) else acc)

/-- `s.lastIndexOf(c)` for a one-character search string: the index of the
last occurrence, `-1` when there is none. -/
def lastIndexOf (s : JsString) (c : Char) : Int := lastIndexOfAux c s 0 (-1)

/-- `s.substring(start)`: a negative `start` counts as `0`, one beyond the
length as the length. -/
def substring (s : JsString) (start : Int) : JsString := s.drop start.toNat

/-! ## Component state -/

/-- A `File` object: the model keeps its name and size. -/
structure File where
  name : JsString
  size : Nat
  deriving DecidableEq, Repr

/-- The `status` state: `"idle" | "uploading" | "done" | "error"`. -/
inductive Status where
  | idle
  | uploading
  | done
  | error
  deriving DecidableEq, Repr

/-- A value produced by `JSON.parse`.  Numbers are kept exactly, as
`(-1)^neg * mant * 10^exp`. -/
inductive JsValue where
  | null
  | bool (b : Bool)
  | num (neg : Bool) (mant : Nat) (exp : Int)
  | str (s : JsString)
  | arr (xs : List JsValue)
  | obj (kvs : List (JsString × JsValue))
  deriving Repr

/-- The five `useState` cells of the component.  `message` holds whatever was
passed to `setMessage`: a string everywhere except in `reader.onload`, where
it is `json.error || "Conversion failed"`. -/
structure Session where
  file : Option File
  dragActive : Bool
  status : Status
  progress : Nat
  message : JsValue

/-- The state after the first render: `useState(null)`, `useState(false)`,
`useState("idle")`, `useState(0)`, `useState("")`. -/
def Session.initial : Session :=
  { file := none, dragActive := false, status := Status.idle, progress := 0,
    message := JsValue.str [] }

/-- Handler `onFileChange`: `const f = e.target.files?.[0]; if (f) setFile(f)`. -/
def onFileChange (s : Session) (f : Option File) : Session :=
  match f with
  | some f => { s with file := some f }
  | none => s

/-- Handler `onDrop`: `setDragActive(false)`, then as `onFileChange` with
`e.dataTransfer.files?.[0]`. -/
def onDrop (s : Session) (f : Option File) : Session :=
  match f with
  | some f => { s with dragActive := false, file := some f }
  | none => { s with dragActive := false }

/-- Handler `onDragOver`. -/
def onDragOver (s : Session) : Session := { s with dragActive := true }

/-- Handler `onDragLeave`. -/
def onDragLeave (s : Session) : Session := { s with dragActive := false }

/-- The Remove button: `onClick={() => setFile(null)}`. -/
def removeFile (s : Session) : Session := { s with file := none }

/-- Function `reset`. -/
def reset (s : Session) : Session :=
  { s with file := none, status := Status.idle, progress := 0, message := JsValue.str [] }

/-! ## `upload`: the synchronous prefix -/

/-- The whitelist `const allowed = [".docx", ".pdf"]`. -/
def allowed : List JsString := [".docx".toList, ".pdf".toList]

/-- The extension computed by `upload`:
`file.name.substring(file.name.lastIndexOf(".")).toLowerCase()`. -/
def extOf (name : JsString) : JsString :=
  toLowerCase (substring name (lastIndexOf name '.'))

/-- What the closure of one `upload` call keeps for its continuation: the
`file` it read and the `ext` it computed. -/
structure Request where
  file : File
  ext : JsString
  deriving DecidableEq, Repr

/-- Function `upload` up to and including the call of `axios.post`: the
session as it stands when the request is issued (or when `upload` returns
without one) and the request issued, if any. -/
def upload (s : Session) : Session × Option Request :=
  match s.file with
  | none =>
      ({ s with message := JsValue.str "Please choose a DOCX or PDF file first.".toList }, none)
  | some file =>
      let ext := extOf file.name
      if ¬ allowed.contains ext then
        ({ s with message := JsValue.str "Only .docx or .pdf files are allowed.".toList }, none)
      else
        ({ s with status := Status.uploading, message := JsValue.str [], progress := 0 },
          some { file := file, ext := ext })

/-! ## The success path: filename derivation -/

/-- One character of a pattern matched under the `i` flag.  Without the `u`
flag a character at or above U+0080 never matches an ASCII pattern character,
so an ASCII letter matches exactly its two cases and any other ASCII
character matches itself. -/
def charMatchesIgnoreCase (p c : Char) : Bool := c.toLower == p.toLower

/-- Match the literal `pat` (under the `i` flag) at the start of `s`; the
rest of the input after the literal. -/
def matchLiteralIgnoreCase : JsString → JsString → Option JsString
  | [], s => some s
  | _ :: _, [] => none
  | p :: ps, c :: cs =>
      if charMatchesIgnoreCase p c then matchLiteralIgnoreCase ps cs else none

/-- First alternative `filename\*=UTF-8''([^;]+)` at the start of `s`: the
capture group 1. -/
def matchExtended (s : JsString) : Option JsString :=
  match matchLiteralIgnoreCase "filename*=UTF-8''".toList s with
  | none => none
  | some rest =>
      let g := rest.takeWhile (fun c => c != ';')
      if g.isEmpty then none else some g

/-- The tail `([^";]+)"?` of the second alternative at the start of `s`: the
capture group 2 (the optional closing quote always succeeds). -/
def matchPlainName (s : JsString) : Option JsString :=
  let g := s.takeWhile (fun c => c != '"' && c != ';')
  if g.isEmpty then none else some g

/-- Second alternative `filename="?([^";]+)"?` at the start of `s`: the
capture group 2.  The greedy `"?` first takes a quote when there is one and
gives it back when the rest then fails. -/
def matchPlain (s : JsString) : Option JsString :=
  match matchLiteralIgnoreCase "filename=".toList s with
  | none => none
  | some rest =>
      match rest with
      | c :: t =>
          if c = '"' then
            match matchPlainName t with
            | some g => some g
            | none => matchPlainName rest
          else matchPlainName rest
      | [] => matchPlainName rest

/-- The pattern `/filename\*=UTF-8''([^;]+)|filename="?([^";]+)"?/i` at the
start of `s`: the value of `match[1] || match[2]` (a captured group is never
empty, so `match[1]` is taken whenever the first alternative matched). -/
def matchDispositionAt (s : JsString) : Option JsString :=
  match matchExtended s with
  | some g => some g
  | none => matchPlain s

/-- `disposition.match(...)`: the leftmost position at which the pattern
matches; `match[1] || match[2]` there, `none` when `match` is `null`. -/
def matchDisposition : JsString → Option JsString
  | [] => matchDispositionAt []
  | c :: cs =>
      match matchDispositionAt (c :: cs) with
      | some g => some g
      | none => matchDisposition cs

/-- Value of a hexadecimal digit. -/
def hexVal (c : Char) : Option Nat :=
  if '0' ≤ c ∧ c ≤ '9' then some (c.toNat - '0'.toNat)
  else if 'a' ≤ c ∧ c ≤ 'f' then some (c.toNat - 'a'.toNat + 10)
  else if 'A' ≤ c ∧ c ≤ 'F' then some (c.toNat - 'A'.toNat + 10)
  else none

/-- Number of leading one bits of an octet, capped at 5. -/
def leadingOnes (b : Nat) : Nat :=
  if b < 0x80 then 0 else if b < 0xC0 then 1 else if b < 0xE0 then 2
  else if b < 0xF0 then 3 else if b < 0xF8 then 4 else 5

/-- The code point encoded by a complete multi-octet UTF-8 sequence; `none`
when the octets are not a valid UTF-8 encoding (bad continuation octet,
overlong form, surrogate, above U+10FFFF). -/
def utf8CodePoint (octets : List Nat) : Option Nat :=
  let cont (b : Nat) : Bool := 0x80 ≤ b && b < 0xC0
  match octets with
  | [a, b] =>
      let v := (a - 0xC0) * 64 + (b - 0x80)
      if cont b && 0x80 ≤ v then some v else none
  | [a, b, c] =>
      let v := (a - 0xE0) * 4096 + (b - 0x80) * 64 + (c - 0x80)
      if cont b && cont c && 0x800 ≤ v && !(0xD800 ≤ v && v < 0xE000) then some v else none
  | [a, b, c, d] =>
      let v := (a - 0xF0) * 262144 + (b - 0x80) * 4096 + (c - 0x80) * 64 + (d - 0x80)
      if cont b && cont c && cont d && 0x10000 ≤ v && v < 0x110000 then some v else none
  | _ => none

/-- Where the scan of `decodeURIComponent` stands inside an escape `%XY`. -/
inductive EscapePos where
  | outside
  | afterPercent
  | afterHigh (hi : Nat)
  deriving DecidableEq, Repr

/-- The abstract operation `Decode` of ECMA-262 with an empty preserved set,
one character at a time.  `pending` is `some (need, octets)` inside a
multi-octet sequence: `octets` read so far, `need` more escapes required.
`none` is a thrown `URIError`. -/
def decodeAux : JsString → EscapePos → Option (Nat × List Nat) → Option JsString
  | [], pos, pending =>
      match pos, pending with
      | EscapePos.outside, none => some []
      | _, _ => none
  | c :: rest, EscapePos.outside, none =>
      if c = '%' then decodeAux rest EscapePos.afterPercent none
      else (decodeAux rest EscapePos.outside none).map (fun r => c :: r)
  | c :: rest, EscapePos.outside, some p =>
      if c = '%' then decodeAux rest EscapePos.afterPercent (some p) else none
  | c :: rest, EscapePos.afterPercent, pending =>
      match hexVal c with
      | none => none
      | some hi => decodeAux rest (EscapePos.afterHigh hi) pending
  | c :: rest, EscapePos.afterHigh hi, pending =>
      match hexVal c with
      | none => none
      | some lo =>
          let b := 16 * hi + lo
          match pending with
          | none =>
              let n := leadingOnes b
              if n = 0 then
                (decodeAux rest EscapePos.outside none).map (fun r => Char.ofNat b :: r)
              else if n = 1 ∨ 4 < n then none
              else decodeAux rest EscapePos.outside (some (n - 1, [b]))
          | some (need, octets) =>
              if need ≤ 1 then
                match utf8CodePoint (octets ++ [b]) with
                | none => none
                | some v =>
                    (decodeAux rest EscapePos.outside none).map (fun r => Char.ofNat v :: r)
              else decodeAux rest EscapePos.outside (some (need - 1, octets ++ [b]))

/-- `decodeURIComponent(s)`; `none` when it throws `URIError`. -/
def decodeURIComponent (s : JsString) : Option JsString :=
  decodeAux s EscapePos.outside none

/-- One match attempt of `/\.[^.]+$/` at the start of `s`. -/
def matchExtensionAt (s : JsString) : Bool :=
  match s with
  | c :: r => c == '.' && !r.isEmpty && r.all (fun x => x != '.')
  | [] => false

/-- `name.replace(/\.[^.]+$/, "")`: the leftmost match is removed (it runs to
the end of the input); without a match the string is returned unchanged. -/
def stripExtension : JsString → JsString
  | [] => []
  | c :: cs => if matchExtensionAt (c :: cs) then [] else c :: stripExtension cs

/-- A value caught by the `catch` block of `upload`, as far as the block
looks at it: `err?.response` (with its `data`: the text of the body blob, or
`none` when `data` is null) and `err?.message`. -/
structure Thrown where
  response : Option (Option JsString)
  message : Option JsString
  deriving DecidableEq, Repr

/-- Text of the `URIError` thrown by `decodeURIComponent` (the wording is the
engine's; this is V8's). -/
def uriErrorMessage : JsString := "URI malformed".toList

/-- Lines 75-84: the download filename, or the `URIError` thrown by
`decodeURIComponent`.  `disposition` is `response.headers["content-disposition"]`
(`none` for `undefined`); the empty string is falsy like `undefined`. -/
def deriveFilename (req : Request) (disposition : Option JsString) : Except Thrown JsString :=
  match disposition with
  | some (d :: ds) =>
      match matchDisposition (d :: ds) with
      | some g =>
          match decodeURIComponent g with
          | some name => Except.ok name
          | none => Except.error { response := none, message := some uriErrorMessage }
      | none => Except.ok "converted-file".toList
  | _ =>
      let base := stripExtension req.file.name
      Except.ok (if req.ext = ".docx".toList then base ++ ".pdf".toList else base ++ ".docx".toList)

/-! ## `JSON.parse` -/

/-- JSON white space. -/
def isJsonSpace (c : Char) : Bool := c == ' ' || c == '\t' || c == '\n' || c == '\r'

/-- Skip JSON white space. -/
def skipSpace (s : JsString) : JsString := s.dropWhile isJsonSpace

/-- UTF-16 code units of one character. -/
def utf16Units (c : Char) : List Nat :=
  if c.toNat < 0x10000 then [c.toNat]
  else [0xD800 + (c.toNat - 0x10000) / 1024, 0xDC00 + (c.toNat - 0x10000) % 1024]

/-- Characters of a sequence of UTF-16 code units.  A surrogate pair is one
character; a lone surrogate has no `Char` and is rendered as U+FFFD. -/
def ofUtf16 : List Nat → JsString
  | [] => []
  | [u] => [if 0xD800 ≤ u ∧ u < 0xE000 then Char.ofNat 0xFFFD else Char.ofNat u]
  | u :: v :: rest =>
      if 0xD800 ≤ u ∧ u < 0xDC00 ∧ 0xDC00 ≤ v ∧ v < 0xE000 then
        Char.ofNat (0x10000 + (u - 0xD800) * 1024 + (v - 0xDC00)) :: ofUtf16 rest
      else if 0xD800 ≤ u ∧ u < 0xE000 then Char.ofNat 0xFFFD :: ofUtf16 (v :: rest)
      else Char.ofNat u :: ofUtf16 (v :: rest)

/-- Body of a JSON string after its opening quote: the code units of the
string and the input after the closing quote. -/
def parseStringUnits : JsString → Option (List Nat × JsString)
  | [] => none
  | c :: rest =>
      if c = '"' then some ([], rest)
      else if c = '\\' then
        match rest with
        | [] => none
        | e :: rest1 =>
            if e = 'u' then
              match rest1 with
              | h1 :: h2 :: h3 :: h4 :: rest2 =>
                  match hexVal h1, hexVal h2, hexVal h3, hexVal h4 with
                  | some a, some b, some c1, some d =>
                      (parseStringUnits rest2).map
                        (fun r => ((a * 4096 + b * 256 + c1 * 16 + d) :: r.1, r.2))
                  | _, _, _, _ => none
              | _ => none
            else
              let unit? : Option Nat :=
                if e = '"' then some 0x22 else if e = '\\' then some 0x5C
                else if e = '/' then some 0x2F else if e = 'b' then some 0x08
                else if e = 'f' then some 0x0C else if e = 'n' then some 0x0A
                else if e = 'r' then some 0x0D else if e = 't' then some 0x09
                else none
              match unit? with
              | none => none
              | some u => (parseStringUnits rest1).map (fun r => (u :: r.1, r.2))
      else if c.toNat < 0x20 then none
      else (parseStringUnits rest).map (fun r => (utf16Units c ++ r.1, r.2))

/-- A JSON string after its opening quote. -/
def parseString (s : JsString) : Option (JsString × JsString) :=
  (parseStringUnits s).map (fun r => (ofUtf16 r.1, r.2))

/-- Value of a run of decimal digits appended to `acc`. -/
def digitsValue (acc : Nat) (ds : JsString) : Nat :=
  ds.foldl (fun a c => 10 * a + (c.toNat - '0'.toNat)) acc

/-- A JSON number: `-? (0 | [1-9][0-9]*) (. [0-9]+)? ([eE] [+-]? [0-9]+)?`. -/
def parseNumber (s : JsString) : Option (JsValue × JsString) :=
  let (neg, s1) := match s with
    | '-' :: r => (true, r)
    | _ => (false, s)
  let intDigits := s1.takeWhile Char.isDigit
  let s2 := s1.dropWhile Char.isDigit
  if intDigits.isEmpty || (intDigits.head? == some '0' && intDigits.length != 1) then none
  else
    let fracResult : Option (JsString × JsString) := match s2 with
      | '.' :: r =>
          let fd := r.takeWhile Char.isDigit
          if fd.isEmpty then none else some (fd, r.dropWhile Char.isDigit)
      | _ => some ([], s2)
    match fracResult with
    | none => none
    | some (fracDigits, s3) =>
        let mant := digitsValue (digitsValue 0 intDigits) fracDigits
        let finish (e : Int) (rest : JsString) : Option (JsValue × JsString) :=
          some (JsValue.num neg mant (e - fracDigits.length), rest)
        match s3 with
        | e :: r =>
            if e = 'e' ∨ e = 'E' then
              let (eneg, r1) := match r with
                | '-' :: t => (true, t)
                | '+' :: t => (false, t)
                | _ => (false, r)
              let ed := r1.takeWhile Char.isDigit
              if ed.isEmpty then none
              else
                let ev : Int := digitsValue 0 ed
                finish (if eneg then -ev else ev) (r1.dropWhile Char.isDigit)
            else finish 0 s3
        | [] => finish 0 s3

/-- The elements of an array after the first one has been announced: a value,
then `,` and more elements or the closing `]`.  `pv` parses one value. -/
def parseElements (pv : JsString → Option (JsValue × JsString)) :
    Nat → JsString → Option (List JsValue × JsString)
  | 0, _ => none
  | n + 1, s =>
      match pv s with
      | none => none
      | some (v, r) =>
          match skipSpace r with
          | ',' :: r1 => (parseElements pv n r1).map (fun t => (v :: t.1, t.2))
          | ']' :: r1 => some ([v], r1)
          | _ => none

/-- The members of an object: `"key" : value`, then `,` and more members or
the closing `}`. -/
def parseMembers (pv : JsString → Option (JsValue × JsString)) :
    Nat → JsString → Option (List (JsString × JsValue) × JsString)
  | 0, _ => none
  | n + 1, s =>
      match skipSpace s with
      | '"' :: r =>
          match parseString r with
          | none => none
          | some (k, r1) =>
              match skipSpace r1 with
              | ':' :: r2 =>
                  match pv r2 with
                  | none => none
                  | some (v, r3) =>
                      match skipSpace r3 with
                      | ',' :: r4 => (parseMembers pv n r4).map (fun t => ((k, v) :: t.1, t.2))
                      | '}' :: r4 => some ([(k, v)], r4)
                      | _ => none
              | _ => none
      | _ => none

/-- One JSON value with the white space before it.  The first argument
bounds the depth of the recursion; every level consumes a character, so the
length of the input plus one is always enough. -/
def parseValue : Nat → JsString → Option (JsValue × JsString)
  | 0, _ => none
  | n + 1, s =>
      match skipSpace s with
      | [] => none
      | c :: r =>
          if c = '{' then
            match skipSpace r with
            | '}' :: r1 => some (JsValue.obj [], r1)
            | _ => (parseMembers (parseValue n) n r).map (fun t => (JsValue.obj t.1, t.2))
          else if c = '[' then
            match skipSpace r with
            | ']' :: r1 => some (JsValue.arr [], r1)
            | _ => (parseElements (parseValue n) n r).map (fun t => (JsValue.arr t.1, t.2))
          else if c = '"' then
            (parseString r).map (fun t => (JsValue.str t.1, t.2))
          else if c = 't' then
            match r with
            | 'r' :: 'u' :: 'e' :: r1 => some (JsValue.bool true, r1)
            | _ => none
          else if c = 'f' then
            match r with
            | 'a' :: 'l' :: 's' :: 'e' :: r1 => some (JsValue.bool false, r1)
            | _ => none
          else if c = 'n' then
            match r with
            | 'u' :: 'l' :: 'l' :: r1 => some (JsValue.null, r1)
            | _ => none
          else parseNumber (c :: r)

/-- `JSON.parse(text)`; `none` when it throws `SyntaxError`. -/
def JSONparse (text : JsString) : Option JsValue :=
  match parseValue (text.length + 1) text with
  | none => none
  | some (v, rest) => if (skipSpace rest).isEmpty then some v else none

/-- Value of the last member of an object with the given key (a later
duplicate key overwrites an earlier one). -/
def lookupLast (key : JsString) : List (JsString × JsValue) → Option JsValue
  | [] => none
  | (k, v) :: rest =>
      match lookupLast key rest with
      | some w => some w
      | none => if k = key then some v else none

/-- `json.error` on a parsed value: `Except.error ()` is the `TypeError` on
`null`; `none` is `undefined` (an object without that key, an array, a
primitive). -/
def getError (json : JsValue) : Except Unit (Option JsValue) :=
  match json with
  | JsValue.null => Except.error ()
  | JsValue.obj kvs => Except.ok (lookupLast "error".toList kvs)
  | _ => Except.ok none

/-- `ToBoolean` on a parsed value.  A number is falsy when its double is
zero: the mantissa is zero, or the value is at most `2^-1075` and rounds to
zero. -/
def truthy : JsValue → Bool
  | JsValue.null => false
  | JsValue.bool b => b
  | JsValue.num _ mant exp =>
      !(mant == 0 || (exp < 0 && mant * 2 ^ 1075 ≤ 10 ^ (-exp).toNat))
  | JsValue.str s => !s.isEmpty
  | JsValue.arr _ => true
  | JsValue.obj _ => true

/-! ## `upload`: the continuations -/

/-- Round to the nearest integer, a tie to the even one. -/
def roundHalfEven (y : ℚ) : ℤ :=
  if y - ⌊y⌋ < 1 / 2 then ⌊y⌋
  else if 1 / 2 < y - ⌊y⌋ then ⌊y⌋ + 1
  else if ⌊y⌋ % 2 = 0 then ⌊y⌋
  else ⌊y⌋ + 1

/-- The Number (IEEE 754 binary64, round to nearest, ties to even) that a
non-negative real `x` is rounded to, as an exact rational: with
`2^e ≤ x < 2^(e+1)` the significand `x / 2^(e-52)` is rounded to an integer.
This is the rounding of the normal range, `2^-1022 ≤ x < 2^1024`; the byte
counts of a progress event are `unsigned long long`, below `2^64`, and keep
every product and quotient of `onUploadProgress` inside it. -/
def toDouble (x : ℚ) : ℚ :=
  if x ≤ 0 then 0
  else (roundHalfEven (x / (2 : ℚ) ^ (Int.log 2 x - 52)) : ℚ) * (2 : ℚ) ^ (Int.log 2 x - 52)

/-- `Math.round(x)` for a Number `x ≥ 0`: the nearest integer, a half
rounding up. -/
def Math.round (x : ℚ) : ℤ := ⌊x + 1 / 2⌋

/-- The value `percent` of line 67,
`Math.round((progressEvent.loaded * 100) / progressEvent.total)`.  `loaded`
and `total` are the byte counts of the event, which JavaScript sees as
Numbers; the product and the quotient are double operations, each rounded by
`toDouble`. -/
def percent (loaded total : Nat) : Nat :=
  (Math.round (toDouble (toDouble (toDouble loaded * 100) / toDouble total))).toNat

/-- Callback `onUploadProgress`.  `total` is `none` when
`progressEvent.total` is `undefined`, and `0` is falsy as well. -/
def onUploadProgress (s : Session) (loaded : Nat) (total : Option Nat) : Session :=
  match total with
  | none => s
  | some t =>
      if t = 0 then s
      else { s with progress := percent loaded t }

/-- A fulfilled request, as far as `upload` looks at it: the header
`response.headers["content-disposition"]`. -/
structure Response where
  contentDisposition : Option JsString
  deriving DecidableEq, Repr

/-- Result of a continuation of `upload`: the session, the filename of the
download triggered (`a.download = filename; a.click()`), and the text of the
blob handed to `reader.readAsText`. -/
structure Outcome where
  session : Session
  download : Option JsString
  reading : Option JsString

/-- The `catch (err)` block (lines 100-125), up to the return of `upload`.
The `FileReader` callback runs later, see `readerOnload`.  With
`responseType: "blob"` the `data` of a response is a blob (an empty one when
the response has no body), so `readAsText` does not throw and the inner
`catch` is not entered; the guard `if (err.response.data)` is kept as it is
in the source. -/
def uploadCatch (s : Session) (err : Thrown) : Outcome :=
  let s1 := { s with status := Status.error }
  match err.response with
  | some data =>
      match data with
      | some text => { session := s1, download := none, reading := some text }
      | none => { session := s1, download := none, reading := none }
  | none =>
      match err.message with
      | some (c :: cs) =>
          { session := { s1 with message := JsValue.str (c :: cs) }, download := none,
            reading := none }
      | _ =>
          { session := { s1 with message := JsValue.str "Conversion failed.".toList },
            download := none, reading := none }

/-- Callback `reader.onload` with `reader.result = text`. -/
def readerOnload (s : Session) (text : JsString) : Session :=
  match JSONparse text with
  | none => { s with message := JsValue.str "Conversion failed (server error).".toList }
  | some json =>
      match getError json with
      | Except.error _ =>
          { s with message := JsValue.str "Conversion failed (server error).".toList }
      | Except.ok (some e) =>
          if truthy e then { s with message := e }
          else { s with message := JsValue.str "Conversion failed".toList }
      | Except.ok none => { s with message := JsValue.str "Conversion failed".toList }

/-- The code of `upload` after `await axios.post(...)` when the request is
fulfilled (lines 74-99), with the `catch` block when the filename derivation
throws.  The DOM calls that trigger the download do not throw. -/
def uploadResolved (s : Session) (req : Request) (resp : Response) : Outcome :=
  match deriveFilename req resp.contentDisposition with
  | Except.ok filename =>
      { session := { s with status := Status.done, progress := 100,
                            message := JsValue.str
                              "Conversion finished. Download should start automatically.".toList },
        download := some filename, reading := none }
  | Except.error err => uploadCatch s err

/-- The `catch` block when the request is rejected with `err`. -/
def uploadRejected (s : Session) (err : Thrown) : Outcome := uploadCatch s err

/-- A failure handled to the end: the `catch` block, then `reader.onload`
when a blob was handed to the reader. -/
def handleFailure (s : Session) (err : Thrown) : Session :=
  let o := uploadRejected s err
  match o.reading with
  | some text => readerOnload o.session text
  | none => o.session

/-! ## The component with its outstanding work -/

/-- The session together with what is outstanding: the requests in flight
(one closure of `upload` each) and the blobs handed to a `FileReader` whose
`onload` has not run yet. -/
structure World where
  session : Session
  requests : List Request
  readers : List JsString

/-- The component after its first render. -/
def World.initial : World :=
  { session := Session.initial, requests := [], readers := [] }

/-- What can happen to the component: a user action, or an event of the
request or reader numbered `i` among the outstanding ones. -/
inductive Event where
  | fileChange (f : Option File)
  | drop (f : Option File)
  | dragOver
  | dragLeave
  | remove
  | reset
  | upload
  | progress (i : Nat) (loaded : Nat) (total : Option Nat)
  | resolve (i : Nat) (resp : Response)
  | reject (i : Nat) (err : Thrown)
  | readerLoad (i : Nat)

/-- Put the result of a continuation back: the request `i` is over, and a
blob handed to a reader is outstanding. -/
def World.finish (w : World) (i : Nat) (o : Outcome) : World :=
  { session := o.session, requests := w.requests.eraseIdx i,
    readers := match o.reading with
      | some text => w.readers ++ [text]
      | none => w.readers }

/-- One event.  `none`: the event cannot happen (there is no request or
reader `i`).  `reset` does not abort a request in flight. -/
def step (w : World) : Event → Option World
  | Event.fileChange f => some { w with session := onFileChange w.session f }
  | Event.drop f => some { w with session := onDrop w.session f }
  | Event.dragOver => some { w with session := onDragOver w.session }
  | Event.dragLeave => some { w with session := onDragLeave w.session }
  | Event.remove => some { w with session := removeFile w.session }
  | Event.reset => some { w with session := reset w.session }
  | Event.upload =>
      match upload w.session with
      | (s, some req) => some { w with session := s, requests := w.requests ++ [req] }
      | (s, none) => some { w with session := s }
  | Event.progress i loaded total =>
      match w.requests[i]? with
      | some _ => some { w with session := onUploadProgress w.session loaded total }
      | none => none
  | Event.resolve i resp =>
      match w.requests[i]? with
      | some req => some (w.finish i (uploadResolved w.session req resp))
      | none => none
  | Event.reject i err =>
      match w.requests[i]? with
      | some _ => some (w.finish i (uploadRejected w.session err))
      | none => none
  | Event.readerLoad i =>
      match w.readers[i]? with
      | some text =>
          some { w with session := readerOnload w.session text, readers := w.readers.eraseIdx i }
      | none => none

/-- Run a sequence of events, each of which has to pass `ok` in the state
it arrives in. -/
def runWhere (ok : World → Event → Bool) : World → List Event → Option World
  | w, [] => some w
  | w, e :: es =>
      if ok w e then
        match step w e with
        | some w1 => runWhere ok w1 es
        | none => none
      else none

/-- Run any sequence of events. -/
def run (w : World) (es : List Event) : Option World := runWhere (fun _ _ => true) w es

/-- The restriction under which the null-file invariant holds: the Remove
button is used only while the status is `idle`, and `reset` is not invoked
while a request is in flight. -/
def removeWhileIdleNoResetInFlight (w : World) : Event → Bool
  | Event.remove => decide (w.session.status = Status.idle)
  | Event.reset => w.requests.isEmpty
  | _ => true

/-- The session after a sequence of progress reports `(loaded, total)`. -/
def afterReports (s : Session) (reports : List (Nat × Option Nat)) : Session :=
  reports.foldl (fun st r => onUploadProgress st r.1 r.2) s

/-- One attempt whose request is fulfilled: `upload`, the progress reports,
the continuation.  The session at the end; `none` when `upload` issues no
request. -/
def attemptEnd (s : Session) (reports : List (Nat × Option Nat)) (resp : Response) :
    Option Session :=
  match upload s with
  | (s1, some req) => some (uploadResolved (afterReports s1 reports) req resp).session
  | (_, none) => none

/-- The successive values of `progress` in that attempt: at the submission,
after each progress report, and at the end.  Empty when `upload` issues no
request. -/
def progressValues (s : Session) (reports : List (Nat × Option Nat)) (resp : Response) :
    List Nat :=
  match upload s with
  | (s1, some req) =>
      (reports.scanl (fun st r => onUploadProgress st r.1 r.2) s1).map Session.progress
        ++ [(uploadResolved (afterReports s1 reports) req resp).session.progress]
  | (_, none) => []

/-! ## The specification's words -/

/-- The extension as the specification words it: the substring of the name
starting at its last `.`, lower-cased; the whole name when it has no `.`. -/
def specExtension (name : JsString) : JsString :=
  if '.' ∈ name then
    toLowerCase ('.' :: (name.reverse.takeWhile (fun c => c != '.')).reverse)
  else toLowerCase name

/-- The name with its final `.<ext>` suffix removed, as the specification
words it: the name without its last characters, as many as the extension
has. -/
def specStem (name : JsString) : JsString :=
  name.take (name.length - (specExtension name).length)

/-- `round(x)` of the specification: the nearest integer, a half rounding
up. -/
def specRound (x : ℚ) : ℤ := ⌊x + 1 / 2⌋

/-! ## Concrete inputs -/

/-- A file named `Report.DOCX`. -/
def reportDocx : File := { name := "Report.DOCX".toList, size := 2048 }

/-- A session with `Report.DOCX` selected that shows an earlier failure. -/
def sessionAfterError : Session :=
  { file := some reportDocx, dragActive := false, status := Status.error, progress := 40,
    message := JsValue.str "Conversion failed.".toList }

/-- A file named `report.docx`. -/
def reportLower : File := { name := "report.docx".toList, size := 2048 }

/-- A file named `report.pdf`. -/
def reportPdf : File := { name := "report.pdf".toList, size := 4096 }

/-- A header with the plain parameter before the extended one. -/
def plainThenExtended : JsString :=
  "attachment; filename=\"relatorio_final.pdf\"; filename*=UTF-8''relatorio%20final.pdf".toList

/-- A header with the extended parameter only. -/
def extendedOnly : JsString := "attachment; filename*=UTF-8''relatorio%20final.pdf".toList

/-- The request issued for `report.docx`. -/
def reportRequest : Request := { file := reportLower, ext := ".docx".toList }

/-- A fulfilled response whose plain filename holds a `%` that starts no
escape. -/
def percentResponse : Response :=
  { contentDisposition := some "attachment; filename=\"100%.pdf\"".toList }

/-- The rejection of axios for a 415 response with the given body text. -/
def errorWithBody (text : JsString) : Thrown :=
  { response := some (some text), message := some "Request failed with status code 415".toList }

/-- A fulfilled response without a content-disposition header. -/
def plainResponse : Response := { contentDisposition := none }

/-- A run: pick `report.docx`, Remove, submit (rejected: no file), drop
`report.docx`, submit, one progress report. -/
def sampleRun : List Event :=
  [Event.fileChange (some reportLower), Event.remove, Event.upload,
    Event.drop (some reportLower), Event.upload, Event.progress 0 512 (some 2048)]

/-- The component at the end of `sampleRun`. -/
def sampleRunEnd : World :=
  { session := onUploadProgress
      { file := some reportLower, dragActive := false, status := Status.uploading,
        progress := 0, message := JsValue.str [] } 512 (some 2048),
    requests := [reportRequest], readers := [] }

/-- A run: pick `report.docx`, Remove, submit. -/
def removeRun : List Event :=
  [Event.fileChange (some reportLower), Event.remove, Event.upload]

/-- The component at the end of `removeRun`. -/
def removeRunEnd : World :=
  { session := { file := none, dragActive := false, status := Status.idle, progress := 0,
                 message := JsValue.str "Please choose a DOCX or PDF file first.".toList },
    requests := [], readers := [] }

/-- Progress reports of a 2048-byte upload; the second has no total. -/
def sampleReports : List (Nat × Option Nat) :=
  [(0, some 2048), (700, none), (1024, some 2048), (1029, some 2048), (2048, some 2048)]

/-! # Properties -/

/-! ## Strings: the extension -/

theorem lastIndexOfAux_of_not_mem (c : Char) (s : JsString) (i : Nat) (acc : Int)
    (h : c ∉ s) : lastIndexOfAux c s i acc = acc := by
  induction s generalizing i acc with
  | nil => rfl
  | cons x xs ih =>
      have hx : x ≠ c := fun e => h (by simp [e])
      have hxs : c ∉ xs := fun e => h (by simp [e])
      simp [lastIndexOfAux, hx, ih _ _ hxs]

theorem lastIndexOfAux_append_cons (c : Char) (pre suf : JsString) (i : Nat) (acc : Int)
    (h : c ∉ suf) : lastIndexOfAux c (pre ++ c :: suf) i acc = (i + pre.length : Nat) := by
  induction pre generalizing i acc with
  | nil => simp [lastIndexOfAux, lastIndexOfAux_of_not_mem c suf _ _ h]
  | cons x xs ih =>
      show lastIndexOfAux c (xs ++ c :: suf) (i + 1) _ = _
      rw [ih]
      simp only [List.length_cons]
      congr 1
      omega

theorem exists_last_split (c : Char) (s : JsString) (h : c ∈ s) :
    ∃ pre suf, s = pre ++ c :: suf ∧ c ∉ suf := by
  induction s with
  | nil => simp at h
  | cons x xs ih =>
      by_cases hxs : c ∈ xs
      · obtain ⟨pre, suf, e, hs⟩ := ih hxs
        exact ⟨x :: pre, suf, by simp [e], hs⟩
      · have : c = x := by
          rcases List.mem_cons.mp h with e | e
          · exact e
          · exact absurd e hxs
        exact ⟨[], xs, by simp [this], hxs⟩

theorem takeWhile_append_stop (p : Char → Bool) (l1 l2 : JsString)
    (h1 : ∀ x ∈ l1, p x = true) (h2 : ∀ a, l2.head? = some a → p a = false) :
    (l1 ++ l2).takeWhile p = l1 := by
  induction l1 with
  | nil =>
      cases l2 with
      | nil => rfl
      | cons a t => simp [List.takeWhile, h2 a rfl]
  | cons x xs ih =>
      have hx : p x = true := h1 x (by simp)
      simp only [List.cons_append, List.takeWhile_cons, hx, if_true]
      rw [ih (fun y hy => h1 y (by simp [hy]))]

theorem substring_lastIndexOf_split (pre suf : JsString) (h : '.' ∉ suf) :
    substring (pre ++ '.' :: suf) (lastIndexOf (pre ++ '.' :: suf) '.') = '.' :: suf := by
  simp [substring, lastIndexOf, lastIndexOfAux_append_cons _ _ _ _ _ h]

theorem substring_lastIndexOf_of_not_mem (s : JsString) (h : '.' ∉ s) :
    substring s (lastIndexOf s '.') = s := by
  simp [substring, lastIndexOf, lastIndexOfAux_of_not_mem _ _ _ _ h]

theorem specExtension_split (pre suf : JsString) (h : '.' ∉ suf) :
    specExtension (pre ++ '.' :: suf) = toLowerCase ('.' :: suf) := by
  have hm : '.' ∈ pre ++ '.' :: suf := by simp
  have ht : (suf.reverse ++ '.' :: pre.reverse).takeWhile (fun c => c != '.') = suf.reverse := by
    apply takeWhile_append_stop
    · intro x hx
      have : x ∈ suf := by simpa using hx
      simp only [bne_iff_ne, ne_eq]
      rintro rfl
      exact h this
    · intro a ha
      simp only [List.head?_cons, Option.some.injEq] at ha
      subst ha
      rfl
  simp only [specExtension, hm, if_true]
  rw [List.reverse_append, List.reverse_cons, List.append_assoc, List.singleton_append, ht,
    List.reverse_reverse]

theorem extOf_eq_specExtension (name : JsString) : extOf name = specExtension name := by
  by_cases h : '.' ∈ name
  · obtain ⟨pre, suf, e, hs⟩ := exists_last_split _ _ h
    subst e
    rw [specExtension_split _ _ hs, extOf, substring_lastIndexOf_split _ _ hs]
  · rw [extOf, substring_lastIndexOf_of_not_mem _ h]
    simp [specExtension, h]

/-! ## The submission gate and `reset` -/

/-- C1. Submission gate of `upload`: no request is issued and status,
progress and file are unchanged exactly when no file is selected or the
extension (as the specification words it) is not `.docx` / `.pdf`; a
rejection sets the guidance message, respectively the whitelist message; an
accepted file gives status `uploading`, progress `0` and the empty message in
the session in which the request is issued. -/
theorem upload_submission_gate (s : Session) :
    (((upload s).2 = none ∧ (upload s).1.status = s.status
        ∧ (upload s).1.progress = s.progress ∧ (upload s).1.file = s.file)
      ↔ (s.file = none ∨
          ∃ f, s.file = some f ∧ specExtension f.name ∉ [".docx".toList, ".pdf".toList]))
    ∧ (s.file = none →
        (upload s).2 = none
        ∧ (upload s).1.message = JsValue.str "Please choose a DOCX or PDF file first.".toList)
    ∧ (∀ f, s.file = some f → specExtension f.name ∉ [".docx".toList, ".pdf".toList] →
        (upload s).2 = none
        ∧ (upload s).1.message = JsValue.str "Only .docx or .pdf files are allowed.".toList)
    ∧ (∀ f, s.file = some f → specExtension f.name ∈ [".docx".toList, ".pdf".toList] →
        (upload s).2 = some { file := f, ext := specExtension f.name }
        ∧ (upload s).1.status = Status.uploading ∧ (upload s).1.progress = 0
        ∧ (upload s).1.message = JsValue.str [] ∧ (upload s).1.file = s.file) := by
  have hrej : ∀ f, s.file = some f → specExtension f.name ∉ [".docx".toList, ".pdf".toList] →
      upload s = ({ s with message := JsValue.str "Only .docx or .pdf files are allowed.".toList },
        none) := by
    intro f hf hn
    have hc : extOf f.name ∉ allowed := by
      rw [extOf_eq_specExtension]
      exact hn
    simp [upload, hf, hc]
  have hacc : ∀ f, s.file = some f → specExtension f.name ∈ [".docx".toList, ".pdf".toList] →
      upload s = ({ s with status := Status.uploading, message := JsValue.str [], progress := 0 },
        some { file := f, ext := specExtension f.name }) := by
    intro f hf hn
    have hc : specExtension f.name ∈ allowed := hn
    simp [upload, hf, hc, extOf_eq_specExtension]
  have hnone : s.file = none →
      upload s = ({ s with message := JsValue.str "Please choose a DOCX or PDF file first.".toList },
        none) := by
    intro hf
    simp [upload, hf]
  refine ⟨⟨?_, ?_⟩, ?_, ?_, ?_⟩
  · intro h
    cases hf : s.file with
    | none => exact Or.inl rfl
    | some f =>
        refine Or.inr ⟨f, rfl, fun hm => ?_⟩
        rw [hacc f hf hm] at h
        simp at h
  · rintro (hf | ⟨f, hf, hn⟩)
    · rw [hnone hf]; simp
    · rw [hrej f hf hn]; simp
  · intro hf
    rw [hnone hf]; simp
  · intro f hf hn
    rw [hrej f hf hn]; simp
  · intro f hf hn
    rw [hacc f hf hn]; simp

/-- C1 at a concrete session: with `Report.DOCX` selected in a session that
shows an earlier error, `upload` issues the request and the session is
`uploading` with progress `0` and an empty message. -/
theorem upload_submission_gate_witness :
    (upload sessionAfterError).2
        = some { file := reportDocx, ext := specExtension reportDocx.name }
      ∧ (upload sessionAfterError).1.status = Status.uploading
      ∧ (upload sessionAfterError).1.progress = 0
      ∧ (upload sessionAfterError).1.message = JsValue.str []
      ∧ (upload sessionAfterError).1.file = sessionAfterError.file :=
  (upload_submission_gate sessionAfterError).2.2.2 reportDocx rfl (by decide)

/-- C10. `reset` from any session gives status `idle`, no file, progress `0`
and the empty message; applying it twice is the same as applying it once. -/
theorem reset_yields_idle_and_is_idempotent (s : Session) :
    (reset s).status = Status.idle ∧ (reset s).file = none ∧ (reset s).progress = 0
      ∧ (reset s).message = JsValue.str [] ∧ reset (reset s) = reset s :=
  ⟨rfl, rfl, rfl, rfl, rfl⟩

/-! ## The fallback filename -/

theorem toLower_eq_dot (c : Char) (h : c.toLower = '.') : c = '.' := by
  unfold Char.toLower at h
  by_cases hc : c.toNat ≥ 65 ∧ c.toNat ≤ 90
  · exfalso
    simp only [hc, and_self, if_true] at h
    have h1 : 65 ≤ c.toNat := hc.1
    have h2 : c.toNat ≤ 90 := hc.2
    have : (Char.ofNat (c.toNat + 32)).toNat = '.'.toNat := by rw [h]
    revert this
    generalize c.toNat = n at h1 h2
    interval_cases n <;> decide
  · simpa only [hc, if_false] using h

theorem toLowerCase_not_allowed_of_no_dot (s : JsString) (h : '.' ∉ s) :
    toLowerCase s ∉ allowed := by
  intro hm
  have hd : ∃ t, toLowerCase s = '.' :: t := by
    simp only [allowed, List.mem_cons, List.mem_singleton, List.not_mem_nil, or_false] at hm
    rcases hm with e | e
    · exact ⟨_, e⟩
    · exact ⟨_, e⟩
  obtain ⟨t, ht⟩ := hd
  cases s with
  | nil => simp [toLowerCase] at ht
  | cons c cs =>
      simp only [toLowerCase, List.map_cons, List.cons.injEq] at ht
      exact h (by rw [toLower_eq_dot c ht.1]; simp)

theorem stripExtension_split (pre suf : JsString) (h : '.' ∉ suf) (hne : suf ≠ []) :
    stripExtension (pre ++ '.' :: suf) = pre := by
  have hall : suf.all (fun x => x != '.') = true := by
    rw [List.all_eq_true]
    intro x hx
    simp only [bne_iff_ne, ne_eq]
    rintro rfl
    exact h hx
  induction pre with
  | nil =>
      have : matchExtensionAt ('.' :: suf) = true := by
        cases suf with
        | nil => exact absurd rfl hne
        | cons a t => simp [matchExtensionAt, hall]
      simp [stripExtension, this]
  | cons x xs ih =>
      have : matchExtensionAt (x :: (xs ++ '.' :: suf)) = false := by
        simp [matchExtensionAt]
      show (if matchExtensionAt (x :: (xs ++ '.' :: suf)) = true then []
        else x :: stripExtension (xs ++ '.' :: suf)) = x :: xs
      rw [this, ih]
      rfl

theorem accepted_name_split (name : JsString) (h : extOf name ∈ allowed) :
    ∃ pre suf, name = pre ++ '.' :: suf ∧ '.' ∉ suf ∧ suf ≠ []
      ∧ extOf name = '.' :: toLowerCase suf := by
  by_cases hd : '.' ∈ name
  · obtain ⟨pre, suf, e, hs⟩ := exists_last_split _ _ hd
    subst e
    have he : extOf (pre ++ '.' :: suf) = '.' :: toLowerCase suf := by
      rw [extOf, substring_lastIndexOf_split _ _ hs]
      rfl
    refine ⟨pre, suf, rfl, hs, ?_, he⟩
    rintro rfl
    rw [he] at h
    revert h
    decide
  · exfalso
    rw [extOf, substring_lastIndexOf_of_not_mem _ hd] at h
    exact toLowerCase_not_allowed_of_no_dot _ hd h

theorem specStem_split (pre suf : JsString) (h : '.' ∉ suf) :
    specStem (pre ++ '.' :: suf) = pre := by
  rw [specStem, specExtension_split _ _ h]
  simp [toLowerCase]

/-- C2. Extension-inversion fallback: for a request issued by `upload` (its
file name passed the whitelist check) and a fulfilled response without a
content-disposition header, the download is named after the uploaded file
with its final `.<ext>` suffix removed and the opposite extension appended:
`.pdf` for `.docx`, `.docx` for `.pdf`. -/
theorem extension_inversion_fallback (s s1 : Session) (req : Request)
    (h : (upload s).2 = some req) :
    (specExtension req.file.name = ".docx".toList ∨ specExtension req.file.name = ".pdf".toList)
    ∧ (specExtension req.file.name = ".docx".toList →
        (uploadResolved s1 req { contentDisposition := none }).download
          = some (specStem req.file.name ++ ".pdf".toList))
    ∧ (specExtension req.file.name = ".pdf".toList →
        (uploadResolved s1 req { contentDisposition := none }).download
          = some (specStem req.file.name ++ ".docx".toList)) := by
  have hreq : req.ext = extOf req.file.name ∧ extOf req.file.name ∈ allowed := by
    unfold upload at h
    cases hf : s.file with
    | none => simp [hf] at h
    | some f =>
        by_cases hc : extOf f.name ∈ allowed
        · simp [hf, hc] at h
          subst h
          exact ⟨rfl, hc⟩
        · simp [hf, hc] at h
  obtain ⟨hext, hall⟩ := hreq
  obtain ⟨pre, suf, e, hs, hne, _⟩ := accepted_name_split _ hall
  have hstrip : stripExtension req.file.name = pre := by rw [e, stripExtension_split _ _ hs hne]
  have hstem : specStem req.file.name = pre := by rw [e, specStem_split _ _ hs]
  have hdl : (uploadResolved s1 req { contentDisposition := none }).download
      = some (if req.ext = ".docx".toList then pre ++ ".pdf".toList else pre ++ ".docx".toList) := by
    simp only [uploadResolved, deriveFilename, hstrip]
  rw [hext, extOf_eq_specExtension] at hdl
  rw [extOf_eq_specExtension] at hall
  refine ⟨by simpa [allowed] using hall, ?_, ?_⟩
  · intro hx
    rw [hdl, hstem, if_pos hx]
  · intro hx
    have : specExtension req.file.name ≠ ".docx".toList := by rw [hx]; decide
    rw [hdl, hstem, if_neg this]

/-- C2 at `report.docx` and `report.pdf`: the downloads are named
`report.pdf` and `report.docx`. -/
theorem extension_inversion_fallback_witness :
    (upload { Session.initial with file := some reportLower }).2
        = some { file := reportLower, ext := ".docx".toList }
    ∧ (uploadResolved Session.initial { file := reportLower, ext := ".docx".toList }
        { contentDisposition := none }).download = some "report.pdf".toList
    ∧ (upload { Session.initial with file := some reportPdf }).2
        = some { file := reportPdf, ext := ".pdf".toList }
    ∧ (uploadResolved Session.initial { file := reportPdf, ext := ".pdf".toList }
        { contentDisposition := none }).download = some "report.docx".toList :=
  ⟨by decide,
   (extension_inversion_fallback { Session.initial with file := some reportLower } Session.initial
      { file := reportLower, ext := ".docx".toList } (by decide)).2.1 (by decide),
   by decide,
   (extension_inversion_fallback { Session.initial with file := some reportPdf } Session.initial
      { file := reportPdf, ext := ".pdf".toList } (by decide)).2.2 (by decide)⟩

/-! ## The content-disposition header -/

theorem matchLiteralIgnoreCase_append (pat param x : JsString)
    (h : param.map Char.toLower = pat.map Char.toLower) :
    matchLiteralIgnoreCase pat (param ++ x) = some x := by
  induction pat generalizing param with
  | nil =>
      have : param = [] := by simpa using h
      subst this
      cases x <;> rfl
  | cons p ps ih =>
      cases param with
      | nil => simp at h
      | cons c cs =>
          simp only [List.map_cons, List.cons.injEq] at h
          show (if charMatchesIgnoreCase p c then matchLiteralIgnoreCase ps (cs ++ x) else none)
            = some x
          have hc : charMatchesIgnoreCase p c = true := by
            simp [charMatchesIgnoreCase, h.1]
          rw [hc, if_pos rfl, ih cs h.2]

theorem matchDisposition_of_matchAt (t g : JsString) (h : matchDispositionAt t = some g) :
    matchDisposition t = some g := by
  cases t with
  | nil => exact h
  | cons c cs =>
      show (match matchDispositionAt (c :: cs) with
        | some g => some g
        | none => matchDisposition cs) = some g
      rw [h]

theorem matchDisposition_skip (pre t : JsString)
    (h : ∀ i, i < pre.length → matchDispositionAt ((pre ++ t).drop i) = none) :
    matchDisposition (pre ++ t) = matchDisposition t := by
  induction pre with
  | nil => rfl
  | cons c cs ih =>
      have h0 : matchDispositionAt (c :: (cs ++ t)) = none := h 0 (by simp)
      show (match matchDispositionAt (c :: (cs ++ t)) with
        | some g => some g
        | none => matchDisposition (cs ++ t)) = matchDisposition t
      rw [h0]
      apply ih
      intro i hi
      have := h (i + 1) (by simpa using hi)
      simpa using this

theorem matchExtended_param (param E rest : JsString)
    (hparam : toLowerCase param = "filename*=utf-8''".toList)
    (hE : E ≠ []) (hsemi : ';' ∉ E) (hrest : rest = [] ∨ rest.head? = some ';') :
    matchExtended (param ++ (E ++ rest)) = some E := by
  have hlit : matchLiteralIgnoreCase "filename*=UTF-8''".toList (param ++ (E ++ rest))
      = some (E ++ rest) := by
    apply matchLiteralIgnoreCase_append
    rw [show param.map Char.toLower = toLowerCase param from rfl, hparam]
    decide
  have htake : (E ++ rest).takeWhile (fun c => c != ';') = E := by
    apply takeWhile_append_stop
    · intro x hx
      simp only [bne_iff_ne, ne_eq]
      rintro rfl
      exact hsemi hx
    · intro a ha
      rcases hrest with hr | hr
      · simp [hr] at ha
      · rw [hr] at ha
        simp only [Option.some.injEq] at ha
        subst ha
        rfl
  have hne : E.isEmpty = false := by
    cases E with
    | nil => exact absurd rfl hE
    | cons a t => rfl
  simp only [matchExtended, hlit, htake, hne]
  rfl

/-- C3, as amended. When a parameter `filename*=UTF-8''E` (in any letter
case, `E` non-empty and running to the next `;` or the end of the header) is
the leftmost match of the pattern, that is, the pattern matches at no position
before it, and `E` is validly percent-encoded, the download is named by the
percent-decoding of `E` and the session ends `done`, whatever follows the
parameter. -/
theorem rfc5987_leftmost_parameter_names_download (s1 : Session) (req : Request)
    (pre param E rest name : JsString)
    (hparam : toLowerCase param = "filename*=utf-8''".toList)
    (hleft : ∀ i, i < pre.length →
      matchDispositionAt ((pre ++ (param ++ (E ++ rest))).drop i) = none)
    (hE : E ≠ []) (hsemi : ';' ∉ E) (hrest : rest = [] ∨ rest.head? = some ';')
    (hdec : decodeURIComponent E = some name) :
    (uploadResolved s1 req
        { contentDisposition := some (pre ++ (param ++ (E ++ rest))) }).download = some name
    ∧ (uploadResolved s1 req
        { contentDisposition := some (pre ++ (param ++ (E ++ rest))) }).session.status
        = Status.done := by
  have hm : matchDisposition (pre ++ (param ++ (E ++ rest))) = some E := by
    rw [matchDisposition_skip _ _ hleft]
    apply matchDisposition_of_matchAt
    simp only [matchDispositionAt, matchExtended_param param E rest hparam hE hsemi hrest]
  have hne : ∃ d ds, pre ++ (param ++ (E ++ rest)) = d :: ds := by
    cases hh : pre ++ (param ++ (E ++ rest)) with
    | nil =>
        exfalso
        simp only [List.append_eq_nil] at hh
        exact hE hh.2.2.1
    | cons d ds => exact ⟨d, ds, rfl⟩
  obtain ⟨d, ds, hd⟩ := hne
  rw [hd] at hm ⊢
  simp [uploadResolved, deriveFilename, hm, hdec]

/-- C3, as amended, at the header
`attachment; filename*=UTF-8''relatorio%20final.pdf`: the download is named
`relatorio final.pdf`. -/
theorem rfc5987_leftmost_parameter_names_download_witness :
    "attachment; ".toList ++ ("filename*=UTF-8''".toList
        ++ ("relatorio%20final.pdf".toList ++ [])) = extendedOnly
    ∧ (uploadResolved Session.initial { file := reportLower, ext := ".docx".toList }
        { contentDisposition := some ("attachment; ".toList ++ ("filename*=UTF-8''".toList
            ++ ("relatorio%20final.pdf".toList ++ []))) }).download
        = some "relatorio final.pdf".toList :=
  ⟨by decide,
   (rfc5987_leftmost_parameter_names_download Session.initial
      { file := reportLower, ext := ".docx".toList }
      "attachment; ".toList "filename*=UTF-8''".toList "relatorio%20final.pdf".toList []
      "relatorio final.pdf".toList (by decide) (by decide) (by decide) (by decide)
      (Or.inl rfl) (by decide)).1⟩

/-- C3 fails as stated. (1) With the plain parameter first, as RFC 6266
recommends for a fallback, the header carries
`filename*=UTF-8''relatorio%20final.pdf` and the download is named by the plain
parameter. (2) With `E` empty nothing matches and the name is
`converted-file`. (3) With `E = 50%` the decoding throws: no download, status
`error`. -/
theorem rfc5987_parameter_not_always_used :
    (plainThenExtended = "attachment; filename=\"relatorio_final.pdf\"; ".toList
        ++ "filename*=UTF-8''".toList ++ "relatorio%20final.pdf".toList
      ∧ decodeURIComponent "relatorio%20final.pdf".toList = some "relatorio final.pdf".toList
      ∧ (uploadResolved Session.initial { file := reportLower, ext := ".docx".toList }
          { contentDisposition := some plainThenExtended }).download
          = some "relatorio_final.pdf".toList)
    ∧ (uploadResolved Session.initial { file := reportLower, ext := ".docx".toList }
          { contentDisposition := some "attachment; filename*=UTF-8''".toList }).download
        = some "converted-file".toList
    ∧ ((uploadResolved Session.initial { file := reportLower, ext := ".docx".toList }
          { contentDisposition := some "attachment; filename*=UTF-8''50%".toList }).download
        = none
      ∧ (uploadResolved Session.initial { file := reportLower, ext := ".docx".toList }
          { contentDisposition := some "attachment; filename*=UTF-8''50%".toList }).session.status
        = Status.error) := by
  refine ⟨⟨by decide, by decide, by decide⟩, by decide, by decide, by decide⟩

/-! ## A header without a match -/

/-- C4, as amended. A non-empty content-disposition header in which the
pattern matches nowhere gives the generic name `converted-file` (and the
session ends `done`), not the extension-inversion fallback. -/
theorem nonmatching_header_gives_generic_name (s1 : Session) (req : Request) (d : JsString)
    (hd : d ≠ []) (hm : matchDisposition d = none) :
    (uploadResolved s1 req { contentDisposition := some d }).download
        = some "converted-file".toList
    ∧ (uploadResolved s1 req { contentDisposition := some d }).session.status = Status.done := by
  cases d with
  | nil => exact absurd rfl hd
  | cons c cs => simp [uploadResolved, deriveFilename, hm]

/-- C4, as amended, at the header `attachment`. -/
theorem nonmatching_header_gives_generic_name_witness :
    (uploadResolved Session.initial reportRequest
        { contentDisposition := some "attachment".toList }).download
      = some "converted-file".toList :=
  (nonmatching_header_gives_generic_name Session.initial reportRequest "attachment".toList
    (by decide) (by decide)).1

/-- C4 fails as stated: for `report.docx` the header `attachment` gives
`converted-file`, while the absent header gives `report.pdf`. -/
theorem nonmatching_header_is_not_the_fallback :
    (upload { Session.initial with file := some reportLower }).2 = some reportRequest
    ∧ matchDisposition "attachment".toList = none
    ∧ (uploadResolved Session.initial reportRequest
        { contentDisposition := some "attachment".toList }).download
        = some "converted-file".toList
    ∧ (uploadResolved Session.initial reportRequest
        { contentDisposition := none }).download = some "report.pdf".toList := by
  refine ⟨by decide, by decide, by decide, by decide⟩

/-! ## A fulfilled request, and the failure path -/

/-- C5 fails on the code: `report.docx` is accepted and the request is
fulfilled, the header is `attachment; filename="100%.pdf"`; the plain name is
passed to `decodeURIComponent`, which throws, and the `catch` block leaves
status `error`, progress `0`, the text of the `URIError` as message, and no
download. -/
theorem fulfilled_request_can_end_in_error :
    (run World.initial [Event.fileChange (some reportLower), Event.upload,
        Event.resolve 0 percentResponse]).map
      (fun w => (w.session.status, w.session.progress, w.requests))
      = some (Status.error, 0, [])
    ∧ (uploadResolved (upload { Session.initial with file := some reportLower }).1
        reportRequest percentResponse).session.message = JsValue.str uriErrorMessage
    ∧ (uploadResolved (upload { Session.initial with file := some reportLower }).1
        reportRequest percentResponse).download = none
    ∧ matchDisposition "attachment; filename=\"100%.pdf\"".toList = some "100%.pdf".toList
    ∧ decodeURIComponent "100%.pdf".toList = none := by
  refine ⟨by decide, by rfl, by decide, by decide, by decide⟩

/-- C6 fails on the code. A rejected request whose response has the body
`{"error":{"code":415}}`: the text parses, `json.error` is an object and so
truthy, and `setMessage(json.error || "Conversion failed")` stores that
object. The session ends with status `error` and a message that is no
string. -/
theorem failure_can_leave_no_message_string :
    (handleFailure (upload { Session.initial with file := some reportLower }).1
        (errorWithBody "\x7b\"error\":\x7b\"code\":415\x7d\x7d".toList)).status = Status.error
    ∧ (handleFailure (upload { Session.initial with file := some reportLower }).1
        (errorWithBody "\x7b\"error\":\x7b\"code\":415\x7d\x7d".toList)).message
        = JsValue.obj [("code".toList, JsValue.num false 415 0)]
    ∧ (∀ e : JsString,
        (handleFailure (upload { Session.initial with file := some reportLower }).1
          (errorWithBody "\x7b\"error\":\x7b\"code\":415\x7d\x7d".toList)).message
          ≠ JsValue.str e) := by
  have hm : (handleFailure (upload { Session.initial with file := some reportLower }).1
        (errorWithBody "\x7b\"error\":\x7b\"code\":415\x7d\x7d".toList)).message
        = JsValue.obj [("code".toList, JsValue.num false 415 0)] := by rfl
  refine ⟨by decide, hm, fun e he => ?_⟩
  rw [hm] at he
  exact JsValue.noConfusion he

/-- C7. Structured error extraction: when the body of an error response
decodes to a text that parses as a JSON object whose field `error` is a
non-empty string `e`, the failure ends with status `error` and message `e`. -/
theorem structured_error_message (s : Session) (err : Thrown) (text : JsString)
    (kvs : List (JsString × JsValue)) (e : JsString)
    (hresp : err.response = some (some text))
    (hparse : JSONparse text = some (JsValue.obj kvs))
    (hfield : lookupLast "error".toList kvs = some (JsValue.str e))
    (hne : e ≠ []) :
    (handleFailure s err).status = Status.error
    ∧ (handleFailure s err).message = JsValue.str e := by
  have ht : truthy (JsValue.str e) = true := by
    cases e with
    | nil => exact absurd rfl hne
    | cons a t => rfl
  have h1 : handleFailure s err = readerOnload { s with status := Status.error } text := by
    simp [handleFailure, uploadRejected, uploadCatch, hresp]
  have h2 : ∀ s0 : Session, readerOnload s0 text = { s0 with message := JsValue.str e } := by
    intro s0
    unfold readerOnload
    rw [hparse]
    simp only [getError]
    rw [hfield]
    simp only [ht, if_true]
  rw [h1, h2]
  exact ⟨rfl, rfl⟩

/-- C7 at the body `{"error":"unsupported format"}`: the message is
`unsupported format`. -/
theorem structured_error_message_witness :
    (handleFailure (upload { Session.initial with file := some reportLower }).1
        (errorWithBody "\x7b\"error\":\"unsupported format\"\x7d".toList)).status = Status.error
    ∧ (handleFailure (upload { Session.initial with file := some reportLower }).1
        (errorWithBody "\x7b\"error\":\"unsupported format\"\x7d".toList)).message
        = JsValue.str "unsupported format".toList :=
  structured_error_message (upload { Session.initial with file := some reportLower }).1
    (errorWithBody "\x7b\"error\":\"unsupported format\"\x7d".toList)
    "\x7b\"error\":\"unsupported format\"\x7d".toList
    [("error".toList, JsValue.str "unsupported format".toList)] "unsupported format".toList
    rfl (by rfl) (by rfl) (by decide)

/-! ## The null-file invariant -/

theorem onUploadProgress_file (s : Session) (l : Nat) (t : Option Nat) :
    (onUploadProgress s l t).file = s.file
    ∧ (onUploadProgress s l t).status = s.status := by
  unfold onUploadProgress
  cases t with
  | none => exact ⟨rfl, rfl⟩
  | some t => by_cases h : t = 0 <;> simp [h]

theorem uploadCatch_file (s : Session) (err : Thrown) :
    (uploadCatch s err).session.file = s.file
    ∧ (uploadCatch s err).session.status = Status.error := by
  unfold uploadCatch
  rcases err with ⟨_ | _ | _, _ | _ | _⟩ <;> exact ⟨rfl, rfl⟩

theorem uploadResolved_file (s : Session) (req : Request) (resp : Response) :
    (uploadResolved s req resp).session.file = s.file
    ∧ (uploadResolved s req resp).session.status ≠ Status.idle := by
  unfold uploadResolved
  cases deriveFilename req resp.contentDisposition with
  | ok _ => exact ⟨rfl, fun h => Status.noConfusion h⟩
  | error err =>
      refine ⟨(uploadCatch_file s err).1, fun h => ?_⟩
      rw [(uploadCatch_file s err).2] at h
      exact Status.noConfusion h

theorem readerOnload_file_status (s : Session) (text : JsString) :
    (readerOnload s text).file = s.file ∧ (readerOnload s text).status = s.status := by
  unfold readerOnload
  split
  · exact ⟨rfl, rfl⟩
  · split
    · exact ⟨rfl, rfl⟩
    · split <;> exact ⟨rfl, rfl⟩
    · exact ⟨rfl, rfl⟩

theorem upload_file (s : Session) : (upload s).1.file = s.file := by
  unfold upload
  cases hf : s.file with
  | none => simp [hf]
  | some f => by_cases h : extOf f.name ∈ allowed <;> simp [h, hf]

theorem upload_none_status (s : Session) (h : (upload s).2 = none) :
    (upload s).1.status = s.status := by
  unfold upload at h ⊢
  cases hf : s.file with
  | none => simp
  | some f =>
      by_cases hc : extOf f.name ∈ allowed
      · simp [hf, hc] at h
      · simp [hc]

theorem upload_some_status (s : Session) (req : Request) (h : (upload s).2 = some req) :
    (upload s).1.status = Status.uploading ∧ s.file ≠ none := by
  unfold upload at h ⊢
  cases hf : s.file with
  | none => simp [hf] at h
  | some f =>
      by_cases hc : extOf f.name ∈ allowed
      · simp [hc]
      · simp [hf, hc] at h

/-- The invariant carried along a run: an idle session has nothing in flight,
and a session without a file is idle. -/
theorem step_preserves_null_file_invariant (w w1 : World) (e : Event)
    (hok : removeWhileIdleNoResetInFlight w e = true) (hstep : step w e = some w1)
    (hinv : (w.session.status = Status.idle → w.requests = [])
      ∧ (w.session.file = none → w.session.status = Status.idle)) :
    (w1.session.status = Status.idle → w1.requests = [])
      ∧ (w1.session.file = none → w1.session.status = Status.idle) := by
  obtain ⟨hidle, hfile⟩ := hinv
  have hflight : ∀ (i : Nat) (r : Request), w.requests[i]? = some r →
      w.session.status ≠ Status.idle := by
    intro i r hr hs
    rw [hidle hs] at hr
    simp at hr
  cases e with
  | fileChange f =>
      cases f with
      | none =>
          simp only [step, onFileChange, Option.some.injEq] at hstep
          subst hstep
          exact ⟨hidle, hfile⟩
      | some f =>
          simp only [step, onFileChange, Option.some.injEq] at hstep
          subst hstep
          exact ⟨hidle, fun h => by simp at h⟩
  | drop f =>
      cases f with
      | none =>
          simp only [step, onDrop, Option.some.injEq] at hstep
          subst hstep
          exact ⟨hidle, hfile⟩
      | some f =>
          simp only [step, onDrop, Option.some.injEq] at hstep
          subst hstep
          exact ⟨hidle, fun h => by simp at h⟩
  | dragOver =>
      simp only [step, onDragOver, Option.some.injEq] at hstep
      subst hstep
      exact ⟨hidle, hfile⟩
  | dragLeave =>
      simp only [step, onDragLeave, Option.some.injEq] at hstep
      subst hstep
      exact ⟨hidle, hfile⟩
  | remove =>
      simp only [removeWhileIdleNoResetInFlight, decide_eq_true_eq] at hok
      simp only [step, removeFile, Option.some.injEq] at hstep
      subst hstep
      exact ⟨hidle, fun _ => hok⟩
  | reset =>
      simp only [removeWhileIdleNoResetInFlight, List.isEmpty_iff] at hok
      simp only [step, reset, Option.some.injEq] at hstep
      subst hstep
      exact ⟨fun _ => hok, fun _ => rfl⟩
  | upload =>
      simp only [step] at hstep
      have hf := upload_file w.session
      cases hu : upload w.session with
      | mk s o =>
          rw [hu] at hstep hf
          cases o with
          | none =>
              have hs := upload_none_status w.session (by rw [hu])
              rw [hu] at hs
              simp only [Option.some.injEq] at hstep
              subst hstep
              refine ⟨fun h => hidle ?_, fun h => ?_⟩
              · rw [← hs]
                exact h
              · have h1 : s.status = w.session.status := hs
                rw [h1]
                exact hfile (by rw [← hf]; exact h)
          | some req =>
              have hs := upload_some_status w.session req (by rw [hu])
              rw [hu] at hs
              simp only [Option.some.injEq] at hstep
              subst hstep
              refine ⟨fun h => ?_, fun h => ?_⟩
              · have h1 : s.status = Status.uploading := hs.1
                rw [h1] at h
                exact Status.noConfusion h
              · exact absurd (by rw [← hf]; exact h) hs.2
  | progress i l t =>
      simp only [step] at hstep
      cases hr : w.requests[i]? with
      | none => simp [hr] at hstep
      | some r =>
          simp only [hr, Option.some.injEq] at hstep
          subst hstep
          have hp := onUploadProgress_file w.session l t
          refine ⟨fun h => hidle ?_, fun h => ?_⟩
          · rw [← hp.2]
            exact h
          · have h1 : (onUploadProgress w.session l t).status = w.session.status := hp.2
            rw [h1]
            exact hfile (by rw [← hp.1]; exact h)
  | resolve i resp =>
      simp only [step] at hstep
      cases hr : w.requests[i]? with
      | none => simp [hr] at hstep
      | some r =>
          simp only [hr, Option.some.injEq] at hstep
          subst hstep
          have hp := uploadResolved_file w.session r resp
          refine ⟨fun h => absurd h hp.2, fun h => ?_⟩
          exact absurd (hfile (by rw [← hp.1]; exact h)) (hflight i r hr)
  | reject i err =>
      simp only [step] at hstep
      cases hr : w.requests[i]? with
      | none => simp [hr] at hstep
      | some r =>
          simp only [hr, Option.some.injEq] at hstep
          subst hstep
          have hp := uploadCatch_file w.session err
          refine ⟨fun h => ?_, fun h => ?_⟩
          · have h1 : (uploadCatch w.session err).session.status = Status.idle := h
            rw [hp.2] at h1
            exact Status.noConfusion h1
          · exact absurd (hfile (by rw [← hp.1]; exact h)) (hflight i r hr)
  | readerLoad i =>
      simp only [step] at hstep
      cases hr : w.readers[i]? with
      | none => simp [hr] at hstep
      | some text =>
          simp only [hr, Option.some.injEq] at hstep
          subst hstep
          have hp := readerOnload_file_status w.session text
          refine ⟨fun h => hidle ?_, fun h => ?_⟩
          · rw [← hp.2]
            exact h
          · have h1 : (readerOnload w.session text).status = w.session.status := hp.2
            rw [h1]
            exact hfile (by rw [← hp.1]; exact h)

theorem runWhere_preserves_null_file_invariant (es : List Event) (w w1 : World)
    (hrun : runWhere removeWhileIdleNoResetInFlight w es = some w1)
    (hinv : (w.session.status = Status.idle → w.requests = [])
      ∧ (w.session.file = none → w.session.status = Status.idle)) :
    (w1.session.status = Status.idle → w1.requests = [])
      ∧ (w1.session.file = none → w1.session.status = Status.idle) := by
  induction es generalizing w with
  | nil =>
      simp only [runWhere, Option.some.injEq] at hrun
      subst hrun
      exact hinv
  | cons e es ih =>
      simp only [runWhere] at hrun
      by_cases hok : removeWhileIdleNoResetInFlight w e = true
      · rw [if_pos hok] at hrun
        cases hs : step w e with
        | none => simp [hs] at hrun
        | some w2 =>
            rw [hs] at hrun
            exact ih w2 hrun (step_preserves_null_file_invariant w w2 e hok hs hinv)
      · rw [if_neg hok] at hrun
        simp at hrun

/-- C8, as amended. In every state reached from the initial one by file
selections (pick or drop), Remove, `upload`, progress, completion and failure
events, reader callbacks and `reset`, where Remove is used only while the
status is `idle` and `reset` is not invoked while a request is in flight: a
null file implies status `idle`, and status `uploading` implies a non-null
file. -/
theorem null_file_invariant_remove_while_idle (es : List Event) (w : World)
    (hrun : runWhere removeWhileIdleNoResetInFlight World.initial es = some w) :
    (w.session.file = none → w.session.status = Status.idle)
    ∧ (w.session.status = Status.uploading → w.session.file ≠ none) := by
  have h := runWhere_preserves_null_file_invariant es World.initial w hrun
    ⟨fun _ => rfl, fun _ => rfl⟩
  refine ⟨h.2, fun hs hf => ?_⟩
  rw [h.2 hf] at hs
  exact Status.noConfusion hs

/-- C8, as amended, on two runs. Pick `report.docx`, Remove, submit: no file,
status `idle`. The same, then drop `report.docx`, submit, one progress report:
status `uploading` with the file there. -/
theorem null_file_invariant_remove_while_idle_witness :
    (runWhere removeWhileIdleNoResetInFlight World.initial removeRun = some removeRunEnd
      ∧ (removeRunEnd.session.file = none → removeRunEnd.session.status = Status.idle))
    ∧ (runWhere removeWhileIdleNoResetInFlight World.initial sampleRun = some sampleRunEnd
      ∧ (sampleRunEnd.session.status = Status.uploading → sampleRunEnd.session.file ≠ none)) :=
  ⟨⟨by rfl, (null_file_invariant_remove_while_idle removeRun removeRunEnd (by rfl)).1⟩,
   ⟨by rfl, (null_file_invariant_remove_while_idle sampleRun sampleRunEnd (by rfl)).2⟩⟩

/-- C8 fails as stated. (1) Pick, submit, completion, Remove: no file, status
`done`. (2) Pick, submit, Remove: no file, status `uploading`. (3) Pick,
submit, failure, Remove: no file, status `error`. (4) Without Remove: pick,
submit, `reset` while the request is in flight, completion: no file, status
`done`. -/
theorem null_file_with_status_not_idle_reachable :
    (run World.initial [Event.fileChange (some reportLower), Event.upload,
        Event.resolve 0 plainResponse, Event.remove]).map
        (fun w => (w.session.file, w.session.status)) = some (none, Status.done)
    ∧ (run World.initial [Event.fileChange (some reportLower), Event.upload,
        Event.remove]).map
        (fun w => (w.session.file, w.session.status)) = some (none, Status.uploading)
    ∧ (run World.initial [Event.fileChange (some reportLower), Event.upload,
        Event.reject 0 { response := none, message := some "Network Error".toList },
        Event.remove]).map
        (fun w => (w.session.file, w.session.status)) = some (none, Status.error)
    ∧ (run World.initial [Event.fileChange (some reportLower), Event.upload, Event.reset,
        Event.resolve 0 plainResponse]).map
        (fun w => (w.session.file, w.session.status)) = some (none, Status.done) := by
  refine ⟨by decide, by decide, by decide, by decide⟩

/-! ## Rounding to a Number -/

theorem floor_le_roundHalfEven (y : ℚ) : ⌊y⌋ ≤ roundHalfEven y := by
  unfold roundHalfEven
  split_ifs <;> omega

theorem roundHalfEven_le_floor_add_one (y : ℚ) : roundHalfEven y ≤ ⌊y⌋ + 1 := by
  unfold roundHalfEven
  split_ifs <;> omega

theorem le_roundHalfEven (z : ℤ) (y : ℚ) (h : (z : ℚ) ≤ y) : z ≤ roundHalfEven y :=
  le_trans (Int.le_floor.mpr h) (floor_le_roundHalfEven y)

theorem roundHalfEven_le (z : ℤ) (y : ℚ) (h : y ≤ (z : ℚ)) : roundHalfEven y ≤ z := by
  rcases eq_or_lt_of_le h with h1 | h1
  · have hf : ⌊y⌋ = z := by rw [h1]; exact Int.floor_intCast z
    unfold roundHalfEven
    have : y - (⌊y⌋ : ℚ) < 1 / 2 := by rw [hf, h1]; norm_num
    rw [if_pos this, hf]
  · have hf : ⌊y⌋ < z := Int.floor_lt.mpr h1
    have := roundHalfEven_le_floor_add_one y
    omega

theorem roundHalfEven_intCast (z : ℤ) : roundHalfEven (z : ℚ) = z :=
  le_antisymm (roundHalfEven_le z _ le_rfl) (le_roundHalfEven z _ le_rfl)

theorem roundHalfEven_lt_of_lt_sub_half (z : ℤ) (y : ℚ) (h : y < (z : ℚ) - 1 / 2) :
    roundHalfEven y < z := by
  have hlt : y < (z : ℚ) := by linarith
  have hf : ⌊y⌋ < z := Int.floor_lt.mpr hlt
  by_cases hz : ⌊y⌋ + 1 < z
  · have := roundHalfEven_le_floor_add_one y
    omega
  · have hfz : ⌊y⌋ = z - 1 := by omega
    have hfq : (⌊y⌋ : ℚ) = (z : ℚ) - 1 := by rw [hfz]; push_cast; ring
    unfold roundHalfEven
    have : y - (⌊y⌋ : ℚ) < 1 / 2 := by rw [hfq]; linarith
    rw [if_pos this]
    omega

theorem le_roundHalfEven_of_sub_half_lt (z : ℤ) (y : ℚ) (h : (z : ℚ) - 1 / 2 < y) :
    z ≤ roundHalfEven y := by
  by_cases hz : z ≤ ⌊y⌋
  · exact le_trans hz (floor_le_roundHalfEven y)
  · have h1 : ((z - 1 : ℤ) : ℚ) ≤ y := by push_cast; linarith
    have h2 : z - 1 ≤ ⌊y⌋ := Int.le_floor.mpr h1
    have hfz : ⌊y⌋ = z - 1 := by omega
    have hfq : (⌊y⌋ : ℚ) = (z : ℚ) - 1 := by rw [hfz]; push_cast; ring
    unfold roundHalfEven
    have hn : ¬ (y - (⌊y⌋ : ℚ) < 1 / 2) := by rw [hfq]; linarith
    have hp : 1 / 2 < y - (⌊y⌋ : ℚ) := by rw [hfq]; linarith
    rw [if_neg hn, if_pos hp]
    omega

theorem roundHalfEven_eq_of_near (z : ℤ) (y : ℚ) (h1 : (z : ℚ) - 1 / 2 < y)
    (h2 : y < (z : ℚ) + 1 / 2) : roundHalfEven y = z := by
  have hlo := le_roundHalfEven_of_sub_half_lt z y h1
  have hhi := roundHalfEven_lt_of_lt_sub_half (z + 1) y (by push_cast; linarith)
  omega

theorem roundHalfEven_mono (y1 y2 : ℚ) (h : y1 ≤ y2) : roundHalfEven y1 ≤ roundHalfEven y2 := by
  have hfl : ⌊y1⌋ ≤ ⌊y2⌋ := Int.floor_mono h
  rcases eq_or_lt_of_le hfl with he | hlt
  · unfold roundHalfEven
    have hq : (⌊y1⌋ : ℚ) = (⌊y2⌋ : ℚ) := by rw [he]
    split_ifs <;> first | omega | (exfalso; linarith)
  · have h1 := roundHalfEven_le_floor_add_one y1
    have h2 := floor_le_roundHalfEven y2
    omega

theorem roundHalfEven_le_add_half (y : ℚ) : (roundHalfEven y : ℚ) ≤ y + 1 / 2 := by
  have hf : (⌊y⌋ : ℚ) ≤ y := Int.floor_le y
  unfold roundHalfEven
  split_ifs with h1 h2 h3
  · linarith
  · push_cast; linarith
  · linarith
  · push_cast; linarith

theorem two_zpow_pos (k : ℤ) : (0 : ℚ) < (2 : ℚ) ^ k := zpow_pos (by norm_num) k

theorem log_two_eq_of_bounds (x : ℚ) (e : ℤ) (h1 : (2 : ℚ) ^ e ≤ x)
    (h2 : x < (2 : ℚ) ^ (e + 1)) : Int.log 2 x = e := by
  have hx : 0 < x := lt_of_lt_of_le (two_zpow_pos e) h1
  have hb : 1 < 2 := by norm_num
  have ha : e ≤ Int.log 2 x := by
    rw [← Int.zpow_le_iff_le_log hb hx]
    simpa using h1
  have hc : Int.log 2 x < e + 1 := by
    rw [← Int.lt_zpow_iff_log_lt hb hx]
    simpa using h2
  omega

theorem log_two_bounds (x : ℚ) (hx : 0 < x) :
    (2 : ℚ) ^ Int.log 2 x ≤ x ∧ x < (2 : ℚ) ^ (Int.log 2 x + 1) := by
  have hb : 1 < 2 := by norm_num
  have h1 := Int.zpow_log_le_self hb hx
  have h2 := Int.lt_zpow_succ_log_self hb x
  exact ⟨by simpa using h1, by simpa using h2⟩

theorem toDouble_of_pos (x : ℚ) (hx : 0 < x) :
    toDouble x = (roundHalfEven (x / (2 : ℚ) ^ (Int.log 2 x - 52)) : ℚ)
      * (2 : ℚ) ^ (Int.log 2 x - 52) := by
  unfold toDouble
  rw [if_neg (not_le.mpr hx)]

theorem toDouble_of_exponent (x : ℚ) (e : ℤ) (h1 : (2 : ℚ) ^ e ≤ x)
    (h2 : x < (2 : ℚ) ^ (e + 1)) :
    toDouble x = (roundHalfEven (x / (2 : ℚ) ^ (e - 52)) : ℚ) * (2 : ℚ) ^ (e - 52) := by
  have hx : 0 < x := lt_of_lt_of_le (two_zpow_pos e) h1
  rw [toDouble_of_pos x hx, log_two_eq_of_bounds x e h1 h2]

theorem toDouble_zero : toDouble 0 = 0 := by
  unfold toDouble
  rw [if_pos le_rfl]

theorem two_zpow_split (e : ℤ) : (2 : ℚ) ^ e = (2 : ℚ) ^ (52 : ℤ) * (2 : ℚ) ^ (e - 52) := by
  rw [← zpow_add₀ (by norm_num : (2 : ℚ) ≠ 0)]
  congr 1
  omega

theorem two_zpow_split_succ (e : ℤ) :
    (2 : ℚ) ^ (e + 1) = (2 : ℚ) ^ (53 : ℤ) * (2 : ℚ) ^ (e - 52) := by
  rw [← zpow_add₀ (by norm_num : (2 : ℚ) ≠ 0)]
  congr 1
  omega

/-- The rounded value stays in the closed binade of its argument. -/
theorem toDouble_bounds (x : ℚ) (hx : 0 < x) :
    (2 : ℚ) ^ Int.log 2 x ≤ toDouble x ∧ toDouble x ≤ (2 : ℚ) ^ (Int.log 2 x + 1) := by
  obtain ⟨h1, h2⟩ := log_two_bounds x hx
  have hu := two_zpow_pos (Int.log 2 x - 52)
  rw [toDouble_of_pos x hx]
  constructor
  · rw [two_zpow_split (Int.log 2 x)]
    apply mul_le_mul_of_nonneg_right _ hu.le
    have : (((2 : ℤ) ^ 52 : ℤ) : ℚ) ≤ x / (2 : ℚ) ^ (Int.log 2 x - 52) := by
      rw [le_div_iff₀ hu]
      have := two_zpow_split (Int.log 2 x)
      push_cast
      calc (2 : ℚ) ^ 52 * (2 : ℚ) ^ (Int.log 2 x - 52)
          = (2 : ℚ) ^ Int.log 2 x := by rw [this]; norm_cast
        _ ≤ x := h1
    have := le_roundHalfEven _ _ this
    have h3 : (((2 : ℤ) ^ 52 : ℤ) : ℚ) ≤ (roundHalfEven (x / (2 : ℚ) ^ (Int.log 2 x - 52)) : ℚ) := by
      exact_mod_cast this
    calc (2 : ℚ) ^ (52 : ℤ) = (((2 : ℤ) ^ 52 : ℤ) : ℚ) := by norm_cast
      _ ≤ _ := h3
  · rw [two_zpow_split_succ (Int.log 2 x)]
    apply mul_le_mul_of_nonneg_right _ hu.le
    have : x / (2 : ℚ) ^ (Int.log 2 x - 52) ≤ (((2 : ℤ) ^ 53 : ℤ) : ℚ) := by
      rw [div_le_iff₀ hu]
      have := two_zpow_split_succ (Int.log 2 x)
      push_cast
      calc x ≤ (2 : ℚ) ^ (Int.log 2 x + 1) := h2.le
        _ = (2 : ℚ) ^ 53 * (2 : ℚ) ^ (Int.log 2 x - 52) := by rw [this]; norm_cast
    have := roundHalfEven_le _ _ this
    have h3 : (roundHalfEven (x / (2 : ℚ) ^ (Int.log 2 x - 52)) : ℚ) ≤ (((2 : ℤ) ^ 53 : ℤ) : ℚ) := by
      exact_mod_cast this
    calc _ ≤ (((2 : ℤ) ^ 53 : ℤ) : ℚ) := h3
      _ = (2 : ℚ) ^ (53 : ℤ) := by norm_cast

theorem toDouble_nonneg (x : ℚ) : 0 ≤ toDouble x := by
  by_cases hx : 0 < x
  · exact le_trans (two_zpow_pos _).le (toDouble_bounds x hx).1
  · unfold toDouble
    rw [if_pos (not_lt.mp hx)]

theorem toDouble_pos (x : ℚ) (hx : 0 < x) : 0 < toDouble x :=
  lt_of_lt_of_le (two_zpow_pos _) (toDouble_bounds x hx).1

theorem toDouble_mono (x y : ℚ) (h : x ≤ y) : toDouble x ≤ toDouble y := by
  by_cases hx : 0 < x
  · have hy : 0 < y := lt_of_lt_of_le hx h
    have hlog : Int.log 2 x ≤ Int.log 2 y := Int.log_mono_right hx h
    rcases eq_or_lt_of_le hlog with he | hlt
    · rw [toDouble_of_pos x hx, toDouble_of_pos y hy, he]
      have hu := two_zpow_pos (Int.log 2 y - 52)
      apply mul_le_mul_of_nonneg_right _ hu.le
      have : x / (2 : ℚ) ^ (Int.log 2 y - 52) ≤ y / (2 : ℚ) ^ (Int.log 2 y - 52) :=
        div_le_div_of_nonneg_right h hu.le
      exact_mod_cast roundHalfEven_mono _ _ this
    · calc toDouble x ≤ (2 : ℚ) ^ (Int.log 2 x + 1) := (toDouble_bounds x hx).2
        _ ≤ (2 : ℚ) ^ Int.log 2 y := zpow_le_zpow_right₀ (by norm_num) (by omega)
        _ ≤ toDouble y := (toDouble_bounds y hy).1
  · have : toDouble x = 0 := by
      unfold toDouble
      rw [if_pos (not_lt.mp hx)]
    rw [this]
    exact toDouble_nonneg y

/-- A value `m * 2^k` with `m < 2^53` is a Number: rounding leaves it. -/
theorem toDouble_representable (m : ℕ) (k : ℤ) (hm : m < 2 ^ 53) :
    toDouble ((m : ℚ) * (2 : ℚ) ^ k) = (m : ℚ) * (2 : ℚ) ^ k := by
  rcases Nat.eq_zero_or_pos m with h0 | hpos
  · subst h0
    simp [toDouble_zero]
  have hmq : (0 : ℚ) < m := by exact_mod_cast hpos
  have hx : 0 < (m : ℚ) * (2 : ℚ) ^ k := mul_pos hmq (two_zpow_pos k)
  obtain ⟨h1, _⟩ := log_two_bounds _ hx
  set e := Int.log 2 ((m : ℚ) * (2 : ℚ) ^ k) with he
  have hlt : (2 : ℚ) ^ e < (2 : ℚ) ^ (53 + k) := by
    calc (2 : ℚ) ^ e ≤ (m : ℚ) * (2 : ℚ) ^ k := h1
      _ < (2 : ℚ) ^ (53 : ℤ) * (2 : ℚ) ^ k := by
          apply mul_lt_mul_of_pos_right _ (two_zpow_pos k)
          have : (m : ℚ) < ((2 ^ 53 : ℕ) : ℚ) := by exact_mod_cast hm
          calc (m : ℚ) < ((2 ^ 53 : ℕ) : ℚ) := this
            _ = (2 : ℚ) ^ (53 : ℤ) := by norm_cast
      _ = (2 : ℚ) ^ (53 + k) := by rw [← zpow_add₀ (by norm_num : (2 : ℚ) ≠ 0)]
  have hek : e < 53 + k := (zpow_lt_zpow_iff_right₀ (by norm_num : (1 : ℚ) < 2)).mp hlt
  obtain ⟨j, hj⟩ : ∃ j : ℕ, (j : ℤ) = k - (e - 52) := ⟨(k - (e - 52)).toNat, by omega⟩
  have hk : k = (j : ℤ) + (e - 52) := by omega
  have hsplit : (2 : ℚ) ^ k = (2 : ℚ) ^ (j : ℤ) * (2 : ℚ) ^ (e - 52) := by
    rw [← zpow_add₀ (by norm_num : (2 : ℚ) ≠ 0), ← hk]
  have hu := two_zpow_pos (e - 52)
  have hdiv : (m : ℚ) * (2 : ℚ) ^ k / (2 : ℚ) ^ (e - 52) = (((m * 2 ^ j : ℕ) : ℤ) : ℚ) := by
    rw [hsplit, ← mul_assoc, mul_div_assoc, div_self hu.ne', mul_one]
    push_cast
    rw [zpow_natCast]
  rw [toDouble_of_pos _ hx, ← he, hdiv, roundHalfEven_intCast, ← hdiv,
    div_mul_cancel₀ _ hu.ne']

theorem toDouble_natCast (n : ℕ) (hn : n < 2 ^ 53) : toDouble (n : ℚ) = n := by
  have := toDouble_representable n 0 hn
  simpa using this

/-- The relative error of the rounding is at most `2^-53`. -/
theorem toDouble_le_mul (x : ℚ) (hx : 0 < x) :
    toDouble x ≤ x * (1 + (2 : ℚ) ^ (-53 : ℤ)) := by
  obtain ⟨h1, _⟩ := log_two_bounds x hx
  have hu := two_zpow_pos (Int.log 2 x - 52)
  have hr := roundHalfEven_le_add_half (x / (2 : ℚ) ^ (Int.log 2 x - 52))
  have hhalf : (1 / 2 : ℚ) * (2 : ℚ) ^ (Int.log 2 x - 52)
      = (2 : ℚ) ^ Int.log 2 x * (2 : ℚ) ^ (-53 : ℤ) := by
    rw [← zpow_add₀ (by norm_num : (2 : ℚ) ≠ 0)]
    have : (1 / 2 : ℚ) = (2 : ℚ) ^ (-1 : ℤ) := by norm_num
    rw [this, ← zpow_add₀ (by norm_num : (2 : ℚ) ≠ 0)]
    congr 1
    omega
  rw [toDouble_of_pos x hx]
  calc (roundHalfEven (x / (2 : ℚ) ^ (Int.log 2 x - 52)) : ℚ) * (2 : ℚ) ^ (Int.log 2 x - 52)
      ≤ (x / (2 : ℚ) ^ (Int.log 2 x - 52) + 1 / 2) * (2 : ℚ) ^ (Int.log 2 x - 52) :=
        mul_le_mul_of_nonneg_right hr hu.le
    _ = x + (1 / 2 : ℚ) * (2 : ℚ) ^ (Int.log 2 x - 52) := by
        rw [add_mul, div_mul_cancel₀ _ hu.ne']
    _ = x + (2 : ℚ) ^ Int.log 2 x * (2 : ℚ) ^ (-53 : ℤ) := by rw [hhalf]
    _ ≤ x + x * (2 : ℚ) ^ (-53 : ℤ) := by
        have := mul_le_mul_of_nonneg_right h1 (two_zpow_pos (-53)).le
        linarith
    _ = x * (1 + (2 : ℚ) ^ (-53 : ℤ)) := by ring

/-! ## Progress -/

theorem onUploadProgress_known (s : Session) (l t : Nat) (ht : 0 < t) :
    (onUploadProgress s l (some t)).progress = percent l t := by
  have : t ≠ 0 := ht.ne'
  simp [onUploadProgress, this]

theorem toDouble_natCast_pos (t : Nat) (ht : 0 < t) : 0 < toDouble (t : ℚ) :=
  toDouble_pos _ (by exact_mod_cast ht)

theorem percent_mono (t a b : Nat) (ht : 0 < t) (h : a ≤ b) : percent a t ≤ percent b t := by
  have hD := toDouble_natCast_pos t ht
  have h1 : toDouble (a : ℚ) ≤ toDouble (b : ℚ) := toDouble_mono _ _ (by exact_mod_cast h)
  have h2 : toDouble (toDouble (a : ℚ) * 100) ≤ toDouble (toDouble (b : ℚ) * 100) :=
    toDouble_mono _ _ (by linarith)
  have h3 : toDouble (toDouble (toDouble (a : ℚ) * 100) / toDouble (t : ℚ))
      ≤ toDouble (toDouble (toDouble (b : ℚ) * 100) / toDouble (t : ℚ)) :=
    toDouble_mono _ _ (div_le_div_of_nonneg_right h2 hD.le)
  unfold percent Math.round
  exact Int.toNat_le_toNat (Int.floor_mono (by linarith))

theorem percent_le_100 (t a : Nat) (ht : 0 < t) (h : a ≤ t) : percent a t ≤ 100 := by
  have hD := toDouble_natCast_pos t ht
  have h1 : toDouble (a : ℚ) ≤ toDouble (t : ℚ) := toDouble_mono _ _ (by exact_mod_cast h)
  have hpos : 0 < toDouble (t : ℚ) * 100 := by linarith
  have h2 : toDouble (toDouble (a : ℚ) * 100)
      ≤ toDouble (t : ℚ) * 100 * (1 + (2 : ℚ) ^ (-53 : ℤ)) :=
    le_trans (toDouble_mono _ _ (by linarith)) (toDouble_le_mul _ hpos)
  have h3 : toDouble (toDouble (a : ℚ) * 100) / toDouble (t : ℚ)
      ≤ 100 * (1 + (2 : ℚ) ^ (-53 : ℤ)) := by
    rw [div_le_iff₀ hD]
    linarith
  have h4 : (100 : ℚ) * (1 + (2 : ℚ) ^ (-53 : ℤ)) ≤ ((401 : ℕ) : ℚ) * (2 : ℚ) ^ (-2 : ℤ) := by
    norm_num
  have h5 : toDouble (toDouble (toDouble (a : ℚ) * 100) / toDouble (t : ℚ))
      ≤ ((401 : ℕ) : ℚ) * (2 : ℚ) ^ (-2 : ℤ) := by
    have := toDouble_mono _ _ (le_trans h3 h4)
    rwa [toDouble_representable 401 (-2) (by norm_num)] at this
  have h6 : Math.round (toDouble (toDouble (toDouble (a : ℚ) * 100) / toDouble (t : ℚ)))
      ≤ 100 := by
    unfold Math.round
    have : toDouble (toDouble (toDouble (a : ℚ) * 100) / toDouble (t : ℚ)) + 1 / 2
        < ((101 : ℤ) : ℚ) := by
      have h7 : ((401 : ℕ) : ℚ) * (2 : ℚ) ^ (-2 : ℤ) = 401 / 4 := by norm_num
      rw [h7] at h5
      push_cast
      linarith
    have := Int.floor_lt.mpr this
    omega
  unfold percent
  omega

/-- Below `2^46` bytes the double operations do not change the rounding:
`percent` is the exact quotient rounded half up. -/
theorem percent_exact (t l : Nat) (ht : 0 < t) (ht46 : t < 2 ^ 46) (hl : l ≤ t) :
    ((percent l t : ℕ) : ℤ) = specRound ((l : ℚ) * 100 / t) := by
  have h46 : (2 : ℕ) ^ 46 = 70368744177664 := by norm_num
  have h53 : (2 : ℕ) ^ 53 = 9007199254740992 := by norm_num
  have hL : toDouble (l : ℚ) = l := toDouble_natCast l (by omega)
  have hD : toDouble (t : ℚ) = t := toDouble_natCast t (by omega)
  have hN : toDouble ((l : ℚ) * 100) = (l : ℚ) * 100 := by
    have := toDouble_natCast (l * 100) (by omega)
    push_cast at this
    exact this
  have htq : (0 : ℚ) < t := by exact_mod_cast ht
  have hq0 : (0 : ℚ) ≤ (l : ℚ) * 100 / t := by positivity
  have hnn : 0 ≤ ⌊(l : ℚ) * 100 / t + 1 / 2⌋ := Int.floor_nonneg.mpr (by linarith)
  suffices hfl : ⌊toDouble ((l : ℚ) * 100 / t) + 1 / 2⌋ = ⌊(l : ℚ) * 100 / t + 1 / 2⌋ by
    unfold percent Math.round specRound
    rw [hL, hN, hD, hfl, Int.toNat_of_nonneg hnn]
  rcases Nat.eq_zero_or_pos l with h0 | hlpos
  · subst h0
    simp [toDouble_zero]
  set q : ℚ := (l : ℚ) * 100 / t with hq
  set K : ℤ := ⌊q + 1 / 2⌋ with hK
  have hK1 : (K : ℚ) ≤ q + 1 / 2 := Int.floor_le _
  have hK2 : q + 1 / 2 < (K : ℚ) + 1 := Int.lt_floor_add_one _
  have hlq : (0 : ℚ) < l := by exact_mod_cast hlpos
  have hqpos : 0 < q := by positivity
  have hq100 : q ≤ 100 := by
    rw [hq, div_le_iff₀ htq]
    have : (l : ℚ) ≤ t := by exact_mod_cast hl
    linarith
  obtain ⟨hb1, _⟩ := log_two_bounds q hqpos
  have he : Int.log 2 q < 7 := by
    have : (2 : ℚ) ^ Int.log 2 q < (2 : ℚ) ^ (7 : ℤ) := by
      calc (2 : ℚ) ^ Int.log 2 q ≤ q := hb1
        _ ≤ 100 := hq100
        _ < (2 : ℚ) ^ (7 : ℤ) := by norm_num
    exact (zpow_lt_zpow_iff_right₀ (by norm_num : (1 : ℚ) < 2)).mp this
  obtain ⟨j, hj⟩ : ∃ j : ℕ, (j : ℤ) = 51 - Int.log 2 q := ⟨(51 - Int.log 2 q).toNat, by omega⟩
  have hj45 : 45 ≤ j := by omega
  have hexp : Int.log 2 q - 52 = -((j + 1 : ℕ) : ℤ) := by push_cast; omega
  have hV : (0 : ℚ) < (2 : ℚ) ^ j := by positivity
  have hVt : (t : ℚ) < 2 * (2 : ℚ) ^ j := by
    have h1 : (2 : ℚ) ^ 45 ≤ (2 : ℚ) ^ j := pow_le_pow_right₀ (by norm_num) hj45
    have h2 : (t : ℚ) < ((2 ^ 46 : ℕ) : ℚ) := by exact_mod_cast ht46
    have h3 : ((2 ^ 46 : ℕ) : ℚ) = 2 * (2 : ℚ) ^ 45 := by norm_num
    linarith
  have hulp : (2 : ℚ) ^ (Int.log 2 q - 52) = (2 * (2 : ℚ) ^ j)⁻¹ := by
    rw [hexp, zpow_neg, zpow_natCast, pow_succ]
    ring
  have hTD : toDouble q = (roundHalfEven (q * (2 * (2 : ℚ) ^ j)) : ℚ) / (2 * (2 : ℚ) ^ j) := by
    rw [toDouble_of_pos q hqpos, hulp, div_inv_eq_mul, div_eq_mul_inv]
  have hU : (0 : ℚ) < 2 * (2 : ℚ) ^ j := by positivity
  -- the half-integers on both sides of `q` are multiples of the unit in the last place
  have hZ1 : (((2 * K - 1) * 2 ^ j : ℤ) : ℚ) = ((K : ℚ) - 1 / 2) * (2 * (2 : ℚ) ^ j) := by
    push_cast
    ring
  have hZ2 : (((2 * K + 1) * 2 ^ j : ℤ) : ℚ) = ((K : ℚ) + 1 / 2) * (2 * (2 : ℚ) ^ j) := by
    push_cast
    ring
  have hlow : ((2 * K - 1) * 2 ^ j : ℤ) ≤ roundHalfEven (q * (2 * (2 : ℚ) ^ j)) := by
    apply le_roundHalfEven
    rw [hZ1]
    apply mul_le_mul_of_nonneg_right _ hU.le
    linarith
  have hint : 200 * (l : ℤ) + 1 ≤ (2 * K + 1) * t := by
    have h1 : (l : ℚ) * 100 < ((K : ℚ) + 1 / 2) * t := by
      have : q < (K : ℚ) + 1 / 2 := by linarith
      rwa [hq, div_lt_iff₀ htq] at this
    have h2 : ((200 * (l : ℤ) : ℤ) : ℚ) < (((2 * K + 1) * t : ℤ) : ℚ) := by
      push_cast
      linarith
    have h3 : 200 * (l : ℤ) < (2 * K + 1) * t := by exact_mod_cast h2
    omega
  have hintq : 200 * (l : ℚ) + 1 ≤ (2 * (K : ℚ) + 1) * t := by exact_mod_cast hint
  have hhigh : roundHalfEven (q * (2 * (2 : ℚ) ^ j)) < ((2 * K + 1) * 2 ^ j : ℤ) := by
    apply roundHalfEven_lt_of_lt_sub_half
    rw [hZ2, hq, div_mul_eq_mul_div, div_lt_iff₀ htq]
    have h1 : (200 * (l : ℚ) + 1) * (2 : ℚ) ^ j ≤ (2 * (K : ℚ) + 1) * t * (2 : ℚ) ^ j :=
      mul_le_mul_of_nonneg_right hintq hV.le
    nlinarith
  have hlowq : (((2 * K - 1) * 2 ^ j : ℤ) : ℚ)
      ≤ (roundHalfEven (q * (2 * (2 : ℚ) ^ j)) : ℚ) := by exact_mod_cast hlow
  have hhighq : (roundHalfEven (q * (2 * (2 : ℚ) ^ j)) : ℚ) + 1
      ≤ (((2 * K + 1) * 2 ^ j : ℤ) : ℚ) := by exact_mod_cast hhigh
  rw [Int.floor_eq_iff, hTD]
  constructor
  · have : ((K : ℚ) - 1 / 2) ≤ (roundHalfEven (q * (2 * (2 : ℚ) ^ j)) : ℚ) / (2 * (2 : ℚ) ^ j) := by
      rw [le_div_iff₀ hU, ← hZ1]
      exact hlowq
    linarith
  · have : (roundHalfEven (q * (2 * (2 : ℚ) ^ j)) : ℚ) / (2 * (2 : ℚ) ^ j) < (K : ℚ) + 1 / 2 := by
      rw [div_lt_iff₀ hU, ← hZ2]
      linarith
    linarith

/-- The values of `progress` along the reports: non-decreasing, at most 100,
none below the value at the start. -/
theorem scanl_progress_sorted (t : Nat) (ht : 0 < t) (reports : List (Nat × Option Nat))
    (s : Session)
    (htotal : ∀ r ∈ reports, r.2 = some t ∨ r.2 = none)
    (hsorted : reports.Pairwise (fun a b => a.1 ≤ b.1))
    (hle : ∀ r ∈ reports, r.1 ≤ t)
    (hstart : ∀ r ∈ reports, s.progress ≤ percent r.1 t)
    (h100 : s.progress ≤ 100) :
    ((reports.scanl (fun st r => onUploadProgress st r.1 r.2) s).map Session.progress).Pairwise
        (fun a b => a ≤ b)
    ∧ (∀ p ∈ (reports.scanl (fun st r => onUploadProgress st r.1 r.2) s).map Session.progress,
        s.progress ≤ p ∧ p ≤ 100) := by
  induction reports generalizing s with
  | nil => simp [h100]
  | cons r rs ih =>
      have hr : (onUploadProgress s r.1 r.2).progress = s.progress
          ∨ (onUploadProgress s r.1 r.2).progress = percent r.1 t := by
        rcases htotal r (by simp) with h | h
        · right
          rw [h]
          exact onUploadProgress_known s r.1 t ht
        · left
          rw [h]
          rfl
      have hge : s.progress ≤ (onUploadProgress s r.1 r.2).progress := by
        rcases hr with h | h
        · rw [h]
        · rw [h]
          exact hstart r (by simp)
      have hnext100 : (onUploadProgress s r.1 r.2).progress ≤ 100 := by
        rcases hr with h | h
        · rw [h]
          exact h100
        · rw [h]
          exact percent_le_100 t r.1 ht (hle r (by simp))
      have hnext : ∀ r1 ∈ rs, (onUploadProgress s r.1 r.2).progress ≤ percent r1.1 t := by
        intro r1 hr1
        rcases hr with h | h
        · rw [h]
          exact hstart r1 (by simp [hr1])
        · rw [h]
          exact percent_mono t _ _ ht ((List.pairwise_cons.mp hsorted).1 r1 hr1)
      have := ih (onUploadProgress s r.1 r.2)
        (fun r1 hr1 => htotal r1 (by simp [hr1])) (List.pairwise_cons.mp hsorted).2
        (fun r1 hr1 => hle r1 (by simp [hr1])) hnext hnext100
      simp only [List.scanl, List.map_cons, List.pairwise_cons, List.mem_cons]
      refine ⟨⟨fun p hp => le_trans hge (this.2 p hp).1, this.1⟩, ?_⟩
      rintro p (hp | hp)
      · rw [hp]
        exact ⟨le_refl _, h100⟩
      · exact ⟨le_trans hge (this.2 p hp).1, (this.2 p hp).2⟩

/-- C9, as amended. Progress within one attempt that ends `done`, for reports
with a fixed known total `t > 0` (or no total) and cumulative
byte counts that do not decrease and stay at most `t`: a report with the
total sets progress to `Math.round` of the double quotient, which is
`round(loaded * 100 / t)` whenever `t < 2^46`; a report without a total leaves
the session unchanged; and the successive values of progress (from the `0` of
the submission through every report to the end) are non-decreasing, within
`[0, 100]`, start at `0` and end at `100`. -/
theorem progress_nondecreasing_to_100 (s : Session) (t : Nat)
    (reports : List (Nat × Option Nat)) (resp : Response)
    (ht : 0 < t)
    (htotal : ∀ r ∈ reports, r.2 = some t ∨ r.2 = none)
    (hsorted : reports.Pairwise (fun a b => a.1 ≤ b.1))
    (hle : ∀ r ∈ reports, r.1 ≤ t)
    (hdone : (attemptEnd s reports resp).map Session.status = some Status.done) :
    (∀ (st : Session) (l : Nat), (onUploadProgress st l (some t)).progress = percent l t)
    ∧ (t < 2 ^ 46 → ∀ (st : Session) (l : Nat), l ≤ t →
        ((onUploadProgress st l (some t)).progress : ℤ) = specRound ((l : ℚ) * 100 / t))
    ∧ (∀ (st : Session) (l : Nat), onUploadProgress st l none = st)
    ∧ (progressValues s reports resp).length = reports.length + 2
    ∧ (progressValues s reports resp).Pairwise (fun a b => a ≤ b)
    ∧ (∀ p ∈ progressValues s reports resp, p ≤ 100)
    ∧ (progressValues s reports resp).head? = some 0
    ∧ (progressValues s reports resp).getLast? = some 100 := by
  refine ⟨fun st l => onUploadProgress_known st l t ht, fun h46 st l hl => ?_,
    fun _ _ => rfl, ?_⟩
  · rw [onUploadProgress_known st l t ht]
    exact percent_exact t l ht h46 hl
  cases hu : upload s with
  | mk s1 o =>
      cases o with
      | none => simp [attemptEnd, hu] at hdone
      | some req =>
          have hs1 : s1.progress = 0 := by
            have h1 : (upload s).1 = s1 := by rw [hu]
            rw [← h1]
            unfold upload at hu ⊢
            cases hf : s.file with
            | none => simp [hf] at hu
            | some f =>
                by_cases hc : extOf f.name ∈ allowed
                · simp [hc]
                · simp [hf, hc] at hu
          have hend : (uploadResolved (afterReports s1 reports) req resp).session.progress
              = 100 := by
            simp only [attemptEnd, hu, Option.map_some', Option.some.injEq] at hdone
            unfold uploadResolved at hdone ⊢
            cases hd : deriveFilename req resp.contentDisposition with
            | ok name => rfl
            | error err =>
                exfalso
                rw [hd] at hdone
                have : (uploadCatch (afterReports s1 reports) err).session.status
                    = Status.error := (uploadCatch_file _ err).2
                rw [this] at hdone
                exact Status.noConfusion hdone
          have hsc := scanl_progress_sorted t ht reports s1 htotal hsorted hle
            (fun r _ => by rw [hs1]; exact Nat.zero_le _) (by rw [hs1]; exact Nat.zero_le _)
          simp only [progressValues, hu, hend]
          refine ⟨by simp [List.length_scanl], ?_, ?_, ?_, by simp⟩
          · rw [List.pairwise_append]
            refine ⟨hsc.1, by simp, ?_⟩
            intro a ha b hb
            simp only [List.mem_singleton] at hb
            rw [hb]
            exact (hsc.2 a ha).2
          · intro p hp
            rcases List.mem_append.mp hp with h | h
            · exact (hsc.2 p h).2
            · simp only [List.mem_singleton] at h
              rw [h]
          · cases reports with
            | nil => simp [hs1]
            | cons r rs => simp [List.scanl, hs1]

/-- C9, as amended, on a 2048-byte upload of `report.docx`: the values of
progress do not decrease and end at 100, and the report of 1029 bytes sets
`round(1029 * 100 / 2048) = 50`. -/
theorem progress_nondecreasing_to_100_witness :
    (progressValues { Session.initial with file := some reportLower } sampleReports
        plainResponse).Pairwise (fun a b => a ≤ b)
    ∧ (progressValues { Session.initial with file := some reportLower } sampleReports
        plainResponse).getLast? = some 100
    ∧ ((onUploadProgress Session.initial 1029 (some 2048)).progress : ℤ)
        = specRound ((1029 : ℕ) * 100 / (2048 : ℕ))
    ∧ specRound ((1029 : ℕ) * 100 / (2048 : ℕ)) = 50 :=
  let h := progress_nondecreasing_to_100 { Session.initial with file := some reportLower } 2048
    sampleReports plainResponse (by decide) (by decide) (by decide) (by decide) (by rfl)
  ⟨h.2.2.2.2.1, h.2.2.2.2.2.2.2, h.2.1 (by decide) Session.initial 1029 (by decide),
   by unfold specRound; rw [Int.floor_eq_iff]; norm_num⟩

/-- C9 fails as stated from `2^46` bytes on. With total 70368744177999
(`2^46 + 335`) and 70016900457109 bytes loaded, within every hypothesis of the
claim, the double quotient is exactly 99.5 and `Math.round` gives 100, while
`round(loaded * 100 / total)` is 99. -/
theorem progress_is_not_the_exact_rounding :
    (0 < 70368744177999 ∧ 70016900457109 ≤ 70368744177999)
    ∧ toDouble (toDouble (toDouble ((70016900457109 : ℕ) : ℚ) * 100)
        / toDouble ((70368744177999 : ℕ) : ℚ)) = 199 / 2
    ∧ (onUploadProgress Session.initial 70016900457109 (some 70368744177999)).progress = 100
    ∧ specRound (((70016900457109 : ℕ) : ℚ) * 100 / ((70368744177999 : ℕ) : ℚ)) = 99 := by
  have hL : toDouble ((70016900457109 : ℕ) : ℚ) = ((70016900457109 : ℕ) : ℚ) :=
    toDouble_natCast _ (by norm_num)
  have hD : toDouble ((70368744177999 : ℕ) : ℚ) = ((70368744177999 : ℕ) : ℚ) :=
    toDouble_natCast _ (by norm_num)
  have hN : toDouble (((70016900457109 : ℕ) : ℚ) * 100) = ((7001690045710900 : ℕ) : ℚ) := by
    have := toDouble_natCast 7001690045710900 (by norm_num)
    rw [← this]
    norm_num
  have hQ : toDouble (((7001690045710900 : ℕ) : ℚ) / ((70368744177999 : ℕ) : ℚ)) = 199 / 2 := by
    rw [toDouble_of_exponent _ 6 (by norm_num) (by norm_num),
      roundHalfEven_eq_of_near 7001690045677568 _ (by norm_num) (by norm_num)]
    norm_num
  have hval : toDouble (toDouble (toDouble ((70016900457109 : ℕ) : ℚ) * 100)
      / toDouble ((70368744177999 : ℕ) : ℚ)) = 199 / 2 := by
    rw [hL, hN, hD, hQ]
  refine ⟨by decide, hval, ?_, ?_⟩
  · rw [onUploadProgress_known _ _ _ (by norm_num)]
    unfold percent Math.round
    rw [hval]
    norm_num
    rfl
  · unfold specRound
    rw [Int.floor_eq_iff]
    norm_num

end DocxPdfConverter
